import Mathlib

/-
  Verification of the orbital-viewer core of the Vib3Code blog repository.

  The numeric core of the TypeScript sources is embedded shallowly over ℚ:
  JavaScript numbers become rationals, `Math.trunc`/`%` become explicit
  truncated division, and the handful of genuinely irrational primitives
  (`Math.sqrt`, GLSL `pow`/`sin`/`cos`/`tan`/`atan`/`radians`) are passed in
  as explicit function parameters, so every theorem quantifies over them.
  Division by zero (which JavaScript maps to NaN/Infinity) is modelled with
  `Option ℚ` where a claim depends on it.
-/

set_option maxHeartbeats 1000000

namespace Orbit

/-- Truncation toward zero: the semantics of JavaScript's `Math.trunc` and the
implicit rounding inside the `%` remainder operator. -/
def jsTrunc (q : ℚ) : ℤ := if 0 ≤ q then ⌊q⌋ else ⌈q⌉

/-- JavaScript's `%` remainder on numbers: `a % n = a - n * trunc(a / n)`
(for a nonzero modulus; the NaN cases never arise below). -/
def jsRem (a n : ℚ) : ℚ := a - n * jsTrunc (a / n)

/-- The normalization idiom `((thetaDeg % 360) + 360) % 360` used throughout
`orbitSprite.ts` and `OrbitViewer.tsx`. -/
def normalizeAngle (thetaDeg : ℚ) : ℚ := jsRem (jsRem thetaDeg 360 + 360) 360

/-- GLSL / JS clamp. -/
def clampQ (x lo hi : ℚ) : ℚ := max lo (min hi x)

theorem jsTrunc_of_nonneg {q : ℚ} (h : 0 ≤ q) : jsTrunc q = ⌊q⌋ := by
  simp [jsTrunc, h]

theorem jsRem_of_nonneg {a n : ℚ} (ha : 0 ≤ a) (hn : 0 < n) :
    jsRem a n = n * Int.fract (a / n) := by
  have hdiv : 0 ≤ a / n := div_nonneg ha hn.le
  rw [jsRem, jsTrunc_of_nonneg hdiv, Int.fract]
  field_simp

/-- `jsRem` of a nonnegative value by a positive modulus lies in `[0, n)`. -/
theorem jsRem_mem_of_nonneg {a n : ℚ} (ha : 0 ≤ a) (hn : 0 < n) :
    0 ≤ jsRem a n ∧ jsRem a n < n := by
  rw [jsRem_of_nonneg ha hn]
  constructor
  · exact mul_nonneg hn.le (Int.fract_nonneg _)
  · calc n * Int.fract (a / n) < n * 1 := by
          exact (mul_lt_mul_left hn).mpr (Int.fract_lt_one _)
       _ = n := mul_one n

/-- The two-step remainder normalization computes `360 * fract (θ / 360)`. -/
theorem normalizeAngle_eq (θ : ℚ) :
    normalizeAngle θ = 360 * Int.fract (θ / 360) := by
  by_cases hθ : 0 ≤ θ
  · have h1 : jsRem θ 360 = 360 * Int.fract (θ / 360) :=
      jsRem_of_nonneg hθ (by norm_num)
    have h2 : (0:ℚ) ≤ 360 * Int.fract (θ / 360) + 360 := by
      have := Int.fract_nonneg (θ / 360)
      nlinarith
    rw [normalizeAngle, h1, jsRem_of_nonneg h2 (by norm_num)]
    have h3 : (360 * Int.fract (θ / 360) + 360) / 360 = Int.fract (θ / 360) + 1 := by
      field_simp
      ring
    rw [h3]
    have h4 : Int.fract (Int.fract (θ / 360) + 1) = Int.fract (θ / 360) := by
      have : ((1:ℤ):ℚ) = (1:ℚ) := by norm_num
      rw [← this, Int.fract_add_int, Int.fract_fract]
    rw [h4]
  · push_neg at hθ
    have hne : ¬ (0 ≤ θ / 360) := by
      intro h
      have : 0 ≤ θ := by nlinarith
      linarith
    have hrem : jsRem θ 360 = -(360 * Int.fract (-(θ / 360))) := by
      rw [jsRem, jsTrunc, if_neg hne, Int.fract, Int.floor_neg]
      push_cast
      field_simp
      ring
    by_cases hz : Int.fract (θ / 360) = 0
    · have hz' : Int.fract (-(θ / 360)) = 0 := by
        rw [Int.fract_neg_eq_zero]
        exact hz
      rw [normalizeAngle, hrem, hz', hz]
      norm_num [jsRem, jsTrunc]
    · have hneg : Int.fract (-(θ / 360)) = 1 - Int.fract (θ / 360) :=
        Int.fract_neg hz
      have hbody : jsRem θ 360 + 360 = 360 * Int.fract (θ / 360) := by
        rw [hrem, hneg]; ring
      have hmem : 0 ≤ 360 * Int.fract (θ / 360) ∧
          360 * Int.fract (θ / 360) < 360 := by
        constructor
        · exact mul_nonneg (by norm_num) (Int.fract_nonneg _)
        · nlinarith [Int.fract_lt_one (θ / 360)]
      rw [normalizeAngle, hbody, jsRem_of_nonneg hmem.1 (by norm_num)]
      congr 1
      have h3 : 360 * Int.fract (θ / 360) / 360 = Int.fract (θ / 360) := by
        field_simp
      rw [h3, Int.fract_fract]

theorem normalizeAngle_mem (θ : ℚ) :
    0 ≤ normalizeAngle θ ∧ normalizeAngle θ < 360 := by
  rw [normalizeAngle_eq]
  constructor
  · exact mul_nonneg (by norm_num) (Int.fract_nonneg _)
  · nlinarith [Int.fract_lt_one (θ / 360)]

theorem normalizeAngle_of_mem {θ : ℚ} (h0 : 0 ≤ θ) (h1 : θ < 360) :
    normalizeAngle θ = θ := by
  rw [normalizeAngle_eq, Int.fract_eq_self.mpr
    ⟨div_nonneg h0 (by norm_num), (div_lt_one (by norm_num)).mpr h1⟩]
  field_simp

/-- `normalizeAngle` differs from its input by an integer multiple of 360. -/
theorem normalizeAngle_sub (θ : ℚ) :
    ∃ k : ℤ, normalizeAngle θ = θ - 360 * k := by
  refine ⟨⌊θ / 360⌋, ?_⟩
  rw [normalizeAngle_eq, Int.fract]
  field_simp

-- === PhaseResolver (`orbitSprite.ts`) ===

/-- Return record of `phaseParams`. -/
structure PhaseParams where
  i : ℤ
  j : ℤ
  t : ℚ
  stepDeg : ℚ
deriving Repr, DecidableEq

/-- `phaseParams(thetaDeg, frames)` from `orbitSprite.ts`:
normalize into `[0, 360)`, split into integer frame index and fractional
blend factor.  `Int.tmod` is the truncated remainder, i.e. JavaScript `%`
on integers. -/
def phaseParams (thetaDeg : ℚ) (frames : ℤ) : PhaseParams :=
  let step : ℚ := 360 / (frames : ℚ)
  let normalized := normalizeAngle thetaDeg
  let u := normalized / step
  let i := Int.tmod ⌊u⌋ frames
  { i := i, j := Int.tmod (i + 1) frames, t := u - ⌊u⌋, stepDeg := step }

/-- `angleForIndex(i, total)` from `orbitSprite.ts`. -/
def angleForIndex (i : ℤ) (total : ℤ) : ℚ := (360 / (total : ℚ)) * (i : ℚ)

/-- C2: `phaseParams` normalizes any input angle into `[0, 360)` (the
normalized angle differing from the input by an integer multiple of 360) and
returns `i = ⌊θ/step⌋ mod frameCount`, `j = (i+1) mod frameCount`,
`t = fract(θ/step)`, `stepDeg = 360/frameCount`; in particular
`phaseParams 0 12 = {i:0, j:1, t:0, stepDeg:30}`,
`phaseParams 15 12 = {i:0, j:1, t:1/2, stepDeg:30}` and
`phaseParams 360 12 = phaseParams 0 12`. -/
theorem phaseParams_correct (θ : ℚ) (n : ℤ) (hn : 0 < n) :
    (phaseParams θ n).stepDeg = 360 / (n : ℚ) ∧
    (0 ≤ normalizeAngle θ ∧ normalizeAngle θ < 360 ∧
      ∃ k : ℤ, normalizeAngle θ = θ - 360 * k) ∧
    (phaseParams θ n).i = ⌊normalizeAngle θ / (360 / (n : ℚ))⌋ % n ∧
    (phaseParams θ n).j = ((phaseParams θ n).i + 1) % n ∧
    (phaseParams θ n).t = Int.fract (normalizeAngle θ / (360 / (n : ℚ))) ∧
    phaseParams 0 12 = ⟨0, 1, 0, 30⟩ ∧
    phaseParams 15 12 = ⟨0, 1, 1/2, 30⟩ ∧
    phaseParams 360 12 = phaseParams 0 12 := by
  have hnq : (0 : ℚ) < (n : ℚ) := by exact_mod_cast hn
  have hstep : (0 : ℚ) < 360 / (n : ℚ) := by positivity
  have hu : 0 ≤ normalizeAngle θ / (360 / (n : ℚ)) :=
    div_nonneg (normalizeAngle_mem θ).1 hstep.le
  have hfl : 0 ≤ ⌊normalizeAngle θ / (360 / (n : ℚ))⌋ := Int.floor_nonneg.mpr hu
  have hi : (phaseParams θ n).i = ⌊normalizeAngle θ / (360 / (n : ℚ))⌋ % n := by
    simp only [phaseParams]
    exact Int.tmod_eq_emod hfl hn.le
  refine ⟨rfl, ⟨(normalizeAngle_mem θ).1, (normalizeAngle_mem θ).2, normalizeAngle_sub θ⟩,
    hi, ?_, rfl, ?_, ?_, ?_⟩
  · have hi0 : 0 ≤ (phaseParams θ n).i := by
      rw [hi]; exact Int.emod_nonneg _ hn.ne'
    simp only [phaseParams]
    simp only [phaseParams] at hi0
    exact Int.tmod_eq_emod (by omega) hn.le
  · norm_num [phaseParams, normalizeAngle, jsRem, jsTrunc]
    decide
  · norm_num [phaseParams, normalizeAngle, jsRem, jsTrunc]
    decide
  · norm_num [phaseParams, normalizeAngle, jsRem, jsTrunc]

/-- Closed instantiation of `phaseParams_correct` at θ = 15, frameCount = 12. -/
theorem phaseParams_correct_witness :
    (0 : ℤ) < 12 ∧
    (phaseParams 15 12).t = Int.fract (normalizeAngle 15 / (360 / ((12 : ℤ) : ℚ))) :=
  ⟨by norm_num, (phaseParams_correct 15 12 (by norm_num)).2.2.2.2.1⟩

-- === sphericalNeighbors (`orbitSprite.ts`) ===

/-- `RingConfig` from `orbitSprite.ts`. -/
structure RingConfig where
  phi : ℚ
  sheets : ℤ
  dualOffset : Option Bool
deriving Repr, DecidableEq

/-- One `{ring, frame, weight}` entry of `sphericalNeighbors`. -/
structure SphNeighbor where
  ring : RingConfig
  frame : ℤ
  weight : ℚ
deriving Repr, DecidableEq

/-- Return record of `sphericalNeighbors`. -/
structure SphResult where
  neighbors : List SphNeighbor
  tTheta : ℚ
  tPhi : ℚ
deriving Repr, DecidableEq

/-- Insertion step of sorting rings ascending by pitch, the effect of
`[...rings].sort((a, b) => a.phi - b.phi)`. -/
def insertByPhi (r : RingConfig) : List RingConfig → List RingConfig
  | [] => [r]
  | s :: rest => if r.phi ≤ s.phi then r :: s :: rest else s :: insertByPhi r rest

/-- Sort rings ascending by pitch. -/
def sortByPhi : List RingConfig → List RingConfig
  | [] => []
  | r :: rest => insertByPhi r (sortByPhi rest)

/-- The bracketing loop of `sphericalNeighbors`: scan consecutive pairs of the
sorted rings for the first pair with `r0.phi ≤ φ ≤ r1.phi`, returning the pair
and the interpolation parameter `(φ - r0.phi) / (r1.phi - r0.phi)`. -/
def findBracket (φ : ℚ) : List RingConfig → Option (RingConfig × RingConfig × ℚ)
  | a :: b :: rest =>
      if a.phi ≤ φ ∧ φ ≤ b.phi then some (a, b, (φ - a.phi) / (b.phi - a.phi))
      else findBracket φ (b :: rest)
  | _ => none

/-- Body of `sphericalNeighbors` once the sorted ring list is known nonempty. -/
def sphericalNeighborsAux (θ φ : ℚ) (n : ℤ) (first : RingConfig)
    (rest : List RingConfig) : SphResult :=
  let stepYaw : ℚ := 360 / (n : ℚ)
  let k : ℤ := ⌊θ / stepYaw⌋
  let tTheta : ℚ := θ / stepYaw - (k : ℚ)
  let sorted := first :: rest
  let base : RingConfig × RingConfig × ℚ :=
    match findBracket φ sorted with
    | some br => br
    | none => (first, first, 0)
  let lastR := sorted.getLast (List.cons_ne_nil _ _)
  let sel : RingConfig × RingConfig × ℚ :=
    if φ < first.phi then (first, first, 0)
    else if lastR.phi < φ then (lastR, lastR, 0)
    else base
  let r0 := sel.1
  let r1 := sel.2.1
  let tPhi := sel.2.2
  let w00 := (1 - tTheta) * (1 - tPhi)
  let w10 := tTheta * (1 - tPhi)
  let w01 := (1 - tTheta) * tPhi
  let w11 := tTheta * tPhi
  { neighbors := [⟨r0, Int.tmod k n, w00⟩, ⟨r0, Int.tmod (k + 1) n, w10⟩,
                  ⟨r1, Int.tmod k n, w01⟩, ⟨r1, Int.tmod (k + 1) n, w11⟩],
    tTheta := tTheta, tPhi := tPhi }

/-- `sphericalNeighbors(thetaDeg, phiDeg, rings, framesPerRing)` from
`orbitSprite.ts`.  Note that `thetaDeg` is NOT normalized (no
`normalizeAngle`), and the frame indices use the JavaScript remainder
(`Int.tmod`).  `none` models the undefined result on an empty ring list. -/
def sphericalNeighbors (θ φ : ℚ) (rings : List RingConfig) (n : ℤ) :
    Option SphResult :=
  match sortByPhi rings with
  | [] => none
  | first :: rest => some (sphericalNeighborsAux θ φ n first rest)

theorem tmod_neg_left (a b : ℤ) : Int.tmod (-a) b = -Int.tmod a b := by
  rw [Int.tmod_def, Int.tmod_def, Int.neg_tdiv]
  ring

theorem tmod_nonpos_of_nonpos {a : ℤ} (b : ℤ) (h : a ≤ 0) : Int.tmod a b ≤ 0 := by
  have := Int.tmod_nonneg b (by omega : (0:ℤ) ≤ -a)
  rw [tmod_neg_left] at this
  omega

theorem tmod_neg_of_neg_not_dvd {a b : ℤ} (ha : a < 0) (hnd : ¬ b ∣ a) :
    Int.tmod a b < 0 := by
  have h1 : Int.tmod a b ≤ 0 := tmod_nonpos_of_nonpos b ha.le
  rcases h1.lt_or_eq with h | h
  · exact h
  · exact absurd (Int.dvd_of_tmod_eq_zero h) hnd

/-- For a negative integer index and at least two frames per ring, the
truncated remainder leaves at least one of two consecutive indices negative. -/
theorem tmod_consecutive_neg {k n : ℤ} (hk : k < 0) (hn : 2 ≤ n) :
    Int.tmod k n < 0 ∨ Int.tmod (k + 1) n < 0 := by
  by_cases hd : n ∣ k
  · right
    obtain ⟨m, hm⟩ := hd
    have hm1 : m ≤ -1 := by nlinarith
    have hk1 : k + 1 < 0 := by nlinarith
    have hnd : ¬ n ∣ (k + 1) := by
      intro ⟨m', hm'⟩
      have : n ∣ 1 := ⟨m' - m, by rw [mul_sub]; omega⟩
      have := Int.le_of_dvd (by norm_num) this
      omega
    exact tmod_neg_of_neg_not_dvd hk1 hnd
  · exact Or.inl (tmod_neg_of_neg_not_dvd hk hd)

theorem aux_frames (θ φ : ℚ) (n : ℤ) (first : RingConfig) (rest : List RingConfig) :
    (sphericalNeighborsAux θ φ n first rest).neighbors.map SphNeighbor.frame =
      [Int.tmod ⌊θ / (360 / (n : ℚ))⌋ n, Int.tmod (⌊θ / (360 / (n : ℚ))⌋ + 1) n,
       Int.tmod ⌊θ / (360 / (n : ℚ))⌋ n, Int.tmod (⌊θ / (360 / (n : ℚ))⌋ + 1) n] := by
  simp [sphericalNeighborsAux]

theorem chain_head_le_getLast :
    ∀ (first : RingConfig) (rest : List RingConfig),
      List.Chain' (fun a b => a.phi < b.phi) (first :: rest) →
      first.phi ≤ ((first :: rest).getLast (List.cons_ne_nil _ _)).phi := by
  intro first rest
  induction rest generalizing first with
  | nil => intro _; simp
  | cons b rest' ih =>
    intro hch
    rw [List.chain'_cons] at hch
    have h1 := ih b hch.2
    have : ((first :: b :: rest').getLast (List.cons_ne_nil _ _)) =
        ((b :: rest').getLast (List.cons_ne_nil _ _)) := by
      simp [List.getLast]
    rw [this]
    exact le_trans hch.1.le h1

/-- C9 (amended): `sphericalNeighbors` does not normalize its yaw argument.
For yaw in `[0,360)` the returned frame indices agree with the `i` and `j` of
`phaseParams`; for every negative yaw, provided the ring holds at least two
frames, at least one returned frame index is negative (floor of a negative
value combined with the JavaScript truncated remainder), so callers must
normalize yaw first; the four weights always sum to 1; and a pitch outside
the sorted ring range is clamped to the extreme ring.  Ring pitches are
assumed strictly increasing once sorted (duplicates would make the
JavaScript interpolation compute 0/0). -/
theorem sphericalNeighbors_correct
    (θ φ : ℚ) (rings : List RingConfig) (n : ℤ) (hn : 0 < n)
    (first : RingConfig) (rest : List RingConfig)
    (hs : sortByPhi rings = first :: rest)
    (hchain : List.Chain' (fun a b => a.phi < b.phi) (sortByPhi rings)) :
    sphericalNeighbors θ φ rings n = some (sphericalNeighborsAux θ φ n first rest) ∧
    ((sphericalNeighborsAux θ φ n first rest).neighbors.map SphNeighbor.weight).sum = 1 ∧
    (0 ≤ θ → θ < 360 →
      (sphericalNeighborsAux θ φ n first rest).neighbors.map SphNeighbor.frame =
        [(phaseParams θ n).i, (phaseParams θ n).j,
         (phaseParams θ n).i, (phaseParams θ n).j]) ∧
    (θ < 0 → 2 ≤ n →
      ∃ f ∈ (sphericalNeighborsAux θ φ n first rest).neighbors.map SphNeighbor.frame,
        f < 0) ∧
    (φ < first.phi →
      (sphericalNeighborsAux θ φ n first rest).neighbors.map SphNeighbor.ring =
        [first, first, first, first] ∧
      (sphericalNeighborsAux θ φ n first rest).tPhi = 0) ∧
    (((first :: rest).getLast (List.cons_ne_nil _ _)).phi < φ →
      (sphericalNeighborsAux θ φ n first rest).neighbors.map SphNeighbor.ring =
        [(first :: rest).getLast (List.cons_ne_nil _ _),
         (first :: rest).getLast (List.cons_ne_nil _ _),
         (first :: rest).getLast (List.cons_ne_nil _ _),
         (first :: rest).getLast (List.cons_ne_nil _ _)] ∧
      (sphericalNeighborsAux θ φ n first rest).tPhi = 0) := by
  have hnq : (0 : ℚ) < (n : ℚ) := by exact_mod_cast hn
  have hstep : (0 : ℚ) < 360 / (n : ℚ) := by positivity
  refine ⟨by simp [sphericalNeighbors, hs], ?_, ?_, ?_, ?_, ?_⟩
  · simp only [sphericalNeighborsAux]
    simp only [List.map_cons, List.map_nil, List.sum_cons, List.sum_nil]
    ring
  · intro h0 h1
    rw [aux_frames]
    have hnorm : normalizeAngle θ = θ := normalizeAngle_of_mem h0 h1
    have hi : (phaseParams θ n).i = Int.tmod ⌊θ / (360 / (n : ℚ))⌋ n := by
      simp only [phaseParams, hnorm]
    have hk0 : 0 ≤ ⌊θ / (360 / (n : ℚ))⌋ :=
      Int.floor_nonneg.mpr (div_nonneg h0 hstep.le)
    have hj : (phaseParams θ n).j = Int.tmod (⌊θ / (360 / (n : ℚ))⌋ + 1) n := by
      simp only [phaseParams, hnorm]
      rw [Int.tmod_eq_emod hk0 hn.le,
        Int.tmod_eq_emod (by have := Int.emod_nonneg ⌊θ / (360 / (n:ℚ))⌋ hn.ne'; omega) hn.le,
        Int.tmod_eq_emod (by omega) hn.le,
        Int.add_emod (⌊θ / (360 / (n:ℚ))⌋ % n) 1 n,
        Int.emod_emod_of_dvd _ dvd_rfl, ← Int.add_emod]
    rw [hi, hj]
  · intro hneg h2
    have hk : ⌊θ / (360 / (n : ℚ))⌋ < 0 := by
      by_contra hcon
      push_neg at hcon
      have : 0 ≤ θ / (360 / (n : ℚ)) := Int.floor_nonneg.mp hcon
      have : 0 ≤ θ := by
        by_contra hq
        push_neg at hq
        have : θ / (360 / (n : ℚ)) < 0 := div_neg_of_neg_of_pos hq hstep
        linarith
      linarith
    rw [aux_frames]
    rcases tmod_consecutive_neg hk h2 with h | h
    · exact ⟨Int.tmod ⌊θ / (360 / (n : ℚ))⌋ n, by simp, h⟩
    · exact ⟨Int.tmod (⌊θ / (360 / (n : ℚ))⌋ + 1) n, by simp, h⟩
  · intro hlow
    constructor
    · simp [sphericalNeighborsAux, hlow]
    · simp [sphericalNeighborsAux, hlow]
  · intro hhigh
    rw [hs] at hchain
    have hfl : first.phi ≤ ((first :: rest).getLast (List.cons_ne_nil _ _)).phi :=
      chain_head_le_getLast first rest hchain
    have hnotlow : ¬ (φ < first.phi) := by
      push_neg
      exact le_trans hfl hhigh.le
    constructor
    · simp [sphericalNeighborsAux, hnotlow, hhigh]
    · simp [sphericalNeighborsAux, hnotlow, hhigh]

/-- C9, counterexample to the unrestricted claim: with a single frame per
ring (`framesPerRing = 1`), the negative yaw −10° yields frame index 0 in
all four neighbor entries — no returned frame index is negative, because
every integer is a multiple of 1, so the truncated remainder is 0. -/
theorem sphericalNeighbors_counterexample :
    sphericalNeighbors (-10) 0 [⟨0, 1, none⟩] 1 =
      some ⟨[⟨⟨0, 1, none⟩, 0, 1/36⟩, ⟨⟨0, 1, none⟩, 0, 35/36⟩,
             ⟨⟨0, 1, none⟩, 0, 0⟩, ⟨⟨0, 1, none⟩, 0, 0⟩], 35/36, 0⟩ := by
  norm_num [sphericalNeighbors, sphericalNeighborsAux, sortByPhi, insertByPhi, findBracket]

/-- Closed instantiation of `sphericalNeighbors_correct` on the three-ring
full-sphere configuration at yaw −10°, pitch 20°, 12 frames per ring. -/
theorem sphericalNeighbors_correct_witness :
    (0 : ℤ) < 12 ∧
    (∃ f ∈ (sphericalNeighborsAux (-10) 20 12 ⟨-15, 1, none⟩
        [⟨0, 1, none⟩, ⟨15, 1, none⟩]).neighbors.map SphNeighbor.frame, f < 0) ∧
    ((sphericalNeighborsAux (-10) 20 12 ⟨-15, 1, none⟩
        [⟨0, 1, none⟩, ⟨15, 1, none⟩]).neighbors.map SphNeighbor.weight).sum = 1 := by
  have h := sphericalNeighbors_correct (-10) 20
    [⟨-15, 1, none⟩, ⟨0, 1, none⟩, ⟨15, 1, none⟩] 12 (by norm_num)
    ⟨-15, 1, none⟩ [⟨0, 1, none⟩, ⟨15, 1, none⟩]
    (by norm_num [sortByPhi, insertByPhi])
    (by norm_num [sortByPhi, insertByPhi])
  exact ⟨by norm_num, h.2.2.2.1 (by norm_num) (by norm_num), h.2.1⟩

-- === FrameStabilizer (`normalize.ts`) ===

/-- RGBA8 pixel buffer: `data` lists bytes row-major, four per pixel. -/
structure ImageData where
  width : ℕ
  height : ℕ
  data : List ℕ
deriving Repr, DecidableEq

/-- The alpha byte `data[(y * width + x) * 4 + 3]` of a pixel. -/
def alphaAt (img : ImageData) (x y : ℕ) : ℕ :=
  img.data.getD ((y * img.width + x) * 4 + 3) 0

/-- The pixels scanned by `analyzeFrame`'s double loop whose alpha exceeds
the threshold, in loop order (y outer, x inner). -/
def foregroundPixels (img : ImageData) (threshold : ℤ) : List (ℕ × ℕ) :=
  (List.range img.height).flatMap (fun y =>
    (List.range img.width).filterMap (fun x =>
      if threshold < (alphaAt img x y : ℤ) then some (x, y) else none))

/-- Analysis record of `analyzeFrame`. -/
structure FrameAnalysis where
  centroidX : ℚ
  centroidY : ℚ
  area : ℚ
  minX : ℚ
  minY : ℚ
  maxX : ℚ
  maxY : ℚ
deriving Repr, DecidableEq

/-- `analyzeFrame(imageData, alphaThreshold)` from `normalize.ts`: threshold
alpha at `⌊alphaThreshold * 255⌋`, count foreground pixels (area), average
their coordinates (centroid, falling back to the frame center when the
foreground is empty), and track the bounding box. -/
def analyzeFrame (img : ImageData) (alphaThreshold : ℚ) : FrameAnalysis :=
  let threshold : ℤ := ⌊alphaThreshold * 255⌋
  let fg := foregroundPixels img threshold
  let count : ℕ := fg.length
  let sumX : ℚ := (fg.map (fun p => (p.1 : ℚ))).sum
  let sumY : ℚ := (fg.map (fun p => (p.2 : ℚ))).sum
  let centroid : ℚ × ℚ :=
    if 0 < count then (sumX / (count : ℚ), sumY / (count : ℚ))
    else ((img.width : ℚ) / 2, (img.height : ℚ) / 2)
  { centroidX := centroid.1, centroidY := centroid.2, area := (count : ℚ),
    minX := fg.foldl (fun m p => min m (p.1 : ℚ)) (img.width : ℚ),
    minY := fg.foldl (fun m p => min m (p.2 : ℚ)) (img.height : ℚ),
    maxX := fg.foldl (fun m p => max m (p.1 : ℚ)) 0,
    maxY := fg.foldl (fun m p => max m (p.2 : ℚ)) 0 }

/-- Per-frame corrective transform. -/
structure Transform where
  dx : ℚ
  dy : ℚ
  scale : ℚ
deriving Repr, DecidableEq

/-- Insertion step of the ascending numeric sort inside `robustMedian`. -/
def insertSortedQ (x : ℚ) : List ℚ → List ℚ
  | [] => [x]
  | y :: ys => if x ≤ y then x :: y :: ys else y :: insertSortedQ x ys

/-- Ascending numeric sort, the effect of `[...values].sort((a, b) => a - b)`. -/
def sortQ : List ℚ → List ℚ
  | [] => []
  | x :: xs => insertSortedQ x (sortQ xs)

/-- `robustMedian(values)` from `normalize.ts`: 0 on an empty list, the
middle element of the sorted list for odd length, the average of the two
middle elements for even length. -/
def robustMedian (values : List ℚ) : ℚ :=
  if values = [] then 0
  else
    let sorted := sortQ values
    let mid := sorted.length / 2
    if sorted.length % 2 ≠ 0 then sorted.getD mid 0
    else (sorted.getD (mid - 1) 0 + sorted.getD mid 0) / 2

/-- `computeSGCoefficients(windowSize)` from `normalize.ts`: triangular
weights `1 - |i| / (halfWindow + 1)` for `i = -halfWindow .. halfWindow`
(index `k = i + halfWindow`), normalized to sum to 1. -/
def computeSGCoefficients (windowSize : ℕ) : List ℚ :=
  let h := windowSize / 2
  let raw := (List.range (2 * h + 1)).map
    (fun (k : ℕ) => 1 - |(k : ℚ) - (h : ℚ)| / ((h : ℚ) + 1))
  raw.map (fun c => c / raw.sum)

/-- `Math.max(0, Math.min(length - 1, i))`: boundary frames reuse the
nearest valid window index. -/
def clampIndex (len : ℕ) (i : ℤ) : ℕ := (max 0 (min ((len : ℤ) - 1) i)).toNat

/-- The inner accumulation loop of `savitzkyGolaySmooth` at output index `i`:
each component is the coefficient-weighted sum over the clamped window. -/
def sgSmoothAt (transforms : List Transform) (coeffs : List ℚ) (h : ℕ)
    (i : ℕ) : Transform :=
  { dx := ((List.range (2 * h + 1)).map (fun (k : ℕ) =>
      (transforms.getD (clampIndex transforms.length ((i : ℤ) + (k : ℤ) - (h : ℤ)))
        ⟨0, 0, 0⟩).dx * coeffs.getD k 0)).sum,
    dy := ((List.range (2 * h + 1)).map (fun (k : ℕ) =>
      (transforms.getD (clampIndex transforms.length ((i : ℤ) + (k : ℤ) - (h : ℤ)))
        ⟨0, 0, 0⟩).dy * coeffs.getD k 0)).sum,
    scale := ((List.range (2 * h + 1)).map (fun (k : ℕ) =>
      (transforms.getD (clampIndex transforms.length ((i : ℤ) + (k : ℤ) - (h : ℤ)))
        ⟨0, 0, 0⟩).scale * coeffs.getD k 0)).sum }

/-- `savitzkyGolaySmooth(transforms, windowSize)` from `normalize.ts`:
identity when the window is too small or the sequence shorter than the
window, otherwise the triangular-weighted moving average with clamped
boundary indices. -/
def savitzkyGolaySmooth (transforms : List Transform) (windowSize : ℕ) :
    List Transform :=
  if windowSize < 3 ∨ transforms.length < windowSize then transforms
  else
    let h := windowSize / 2
    let coeffs := computeSGCoefficients windowSize
    (List.range transforms.length).map (sgSmoothAt transforms coeffs h)

/-- Options record of `normalizeSprite` (`NormalizationOptions` with the
defaults of `DEFAULT_OPTIONS` filled in). -/
structure NormalizationOptions where
  targetFit : ℚ
  scaleClamp : ℚ
  featherPx : ℚ
  smoothWindow : ℕ
  alphaThreshold : ℚ
deriving Repr, DecidableEq

/-- `DEFAULT_OPTIONS` from `normalize.ts`. -/
def defaultOptions : NormalizationOptions :=
  { targetFit := 4/5, scaleClamp := 3/100, featherPx := 2, smoothWindow := 5,
    alphaThreshold := 1/10 }

/-- The per-frame scale clamp `Math.max(1 - c, Math.min(1 + c, scale))`. -/
def clampScale (c raw : ℚ) : ℚ := max (1 - c) (min (1 + c) raw)

/-- Step 3 of `normalizeSprite` for one frame: scale to match the target
area via `Math.sqrt(targetArea / Math.max(area, 1))` (the square root is the
`sqrtFn` parameter — `Math.sqrt` itself is irrational), clamp the scale, and
translate the scaled centroid onto the target centroid. -/
def computeTransform (sqrtFn : ℚ → ℚ) (c targetArea tx ty : ℚ)
    (f : FrameAnalysis) : Transform :=
  let scale := clampScale c (sqrtFn (targetArea / max f.area 1))
  { dx := tx - f.centroidX * scale, dy := ty - f.centroidY * scale,
    scale := scale }

/-- Output frame record of `normalizeSprite` (the numeric fields; the
resampled pixel buffer of `composeFrame` carries no further data used by
the metrics). -/
structure NormalizedFrame where
  centroidX : ℚ
  centroidY : ℚ
  area : ℚ
  scale : ℚ
  dx : ℚ
  dy : ℚ
deriving Repr, DecidableEq

/-- Steps 1–5 of `normalizeSprite`: analyze every tile, take the median
area/centroid as target, compute per-frame clamped transforms, smooth them
temporally, and produce the final frames with transformed centroid and
`area * scale²`. -/
def normalizeFrames (sqrtFn : ℚ → ℚ) (opts : NormalizationOptions)
    (tiles : List ImageData) : List NormalizedFrame :=
  let analyses := tiles.map (fun t => analyzeFrame t opts.alphaThreshold)
  let targetArea := robustMedian (analyses.map FrameAnalysis.area)
  let tx := robustMedian (analyses.map FrameAnalysis.centroidX)
  let ty := robustMedian (analyses.map FrameAnalysis.centroidY)
  let transforms := analyses.map (computeTransform sqrtFn opts.scaleClamp targetArea tx ty)
  let smoothed := savitzkyGolaySmooth transforms opts.smoothWindow
  (analyses.zip smoothed).map (fun p =>
    { centroidX := p.1.centroidX * p.2.scale + p.2.dx,
      centroidY := p.1.centroidY * p.2.scale + p.2.dy,
      area := p.1.area * p.2.scale * p.2.scale,
      scale := p.2.scale, dx := p.2.dx, dy := p.2.dy })

/-- JavaScript division feeding `Math.max`: a zero divisor yields NaN or
±Infinity, i.e. a non-finite number, modelled as `none`. -/
def jdiv (a b : ℚ) : Option ℚ := if b = 0 then none else some (a / b)

/-- `Math.max` of two values where `none` (non-finite) poisons the result. -/
def jmax2 : Option ℚ → Option ℚ → Option ℚ
  | some a, some b => some (max a b)
  | _, _ => none

/-- `Math.max(...list)`: `none` on the empty list (JS gives -Infinity). -/
def jmaxList : List (Option ℚ) → Option ℚ
  | [] => none
  | t :: ts => ts.foldl jmax2 t

/-- `standardDeviation(values)` from `normalize.ts` (square root abstracted
as `sqrtFn`). -/
def standardDeviation (sqrtFn : ℚ → ℚ) (values : List ℚ) : ℚ :=
  if values = [] then 0
  else
    let mean := values.sum / (values.length : ℚ)
    let squaredDiffs := values.map (fun v => (v - mean) ^ 2)
    sqrtFn (squaredDiffs.sum / (values.length : ℚ))

/-- Metrics record of `computeMetrics` (the wall-clock `avgPostProcMs` field
is timing, not data, and is omitted). -/
structure NormalizationMetrics where
  centroidStddev : ℚ
  areaDrift : Option ℚ
  frameCount : ℕ
deriving Repr, DecidableEq

/-- `computeMetrics(frames, totalTimeMs)` from `normalize.ts`: centroid
standard deviation and `areaDrift = max |a - median| / median * 100` with no
guard on a zero median. -/
def computeMetrics (sqrtFn : ℚ → ℚ) (frames : List NormalizedFrame) :
    NormalizationMetrics :=
  if frames = [] then ⟨0, some 0, 0⟩
  else
    let sx := standardDeviation sqrtFn (frames.map NormalizedFrame.centroidX)
    let sy := standardDeviation sqrtFn (frames.map NormalizedFrame.centroidY)
    let areas := frames.map NormalizedFrame.area
    let medianArea := robustMedian areas
    { centroidStddev := sqrtFn (sx ^ 2 + sy ^ 2),
      areaDrift := jmaxList (areas.map (fun a =>
        (jdiv |a - medianArea| medianArea).map (fun q => q * 100))),
      frameCount := frames.length }

/-- `normalizeSprite`'s numeric core: the stabilized frames plus metrics. -/
def normalizeSprite (sqrtFn : ℚ → ℚ) (opts : NormalizationOptions)
    (tiles : List ImageData) : List NormalizedFrame × NormalizationMetrics :=
  let frames := normalizeFrames sqrtFn opts tiles
  (frames, computeMetrics sqrtFn frames)

-- Generic list lemmas used by the smoothing bound.

theorem map_getD_range {α : Type} (l : List α) (d : α) :
    (List.range l.length).map (fun k => l.getD k d) = l := by
  induction l with
  | nil => rfl
  | cons x xs ih =>
    rw [List.length_cons, List.range_succ_eq_map, List.map_cons, List.map_map]
    have hcomp : ((fun k => (x :: xs).getD k d) ∘ Nat.succ) = fun k => xs.getD k d := by
      funext k
      simp [List.getD_cons_succ]
    rw [List.getD_cons_zero, hcomp, ih]

theorem weighted_range_bounds (m : ℕ) (w x : ℕ → ℚ) (lo hi : ℚ)
    (hw : ∀ k, k < m → 0 ≤ w k) (hx : ∀ k, k < m → lo ≤ x k ∧ x k ≤ hi) :
    lo * ((List.range m).map w).sum ≤ ((List.range m).map (fun k => x k * w k)).sum ∧
    ((List.range m).map (fun k => x k * w k)).sum ≤ hi * ((List.range m).map w).sum := by
  induction m with
  | zero => simp
  | succ m ih =>
    have h1 := ih (fun k hk => hw k (by omega)) (fun k hk => hx k (by omega))
    have h2l : lo * w m ≤ x m * w m :=
      mul_le_mul_of_nonneg_right (hx m (by omega)).1 (hw m (by omega))
    have h2r : x m * w m ≤ hi * w m :=
      mul_le_mul_of_nonneg_right (hx m (by omega)).2 (hw m (by omega))
    rw [List.range_succ, List.map_append, List.map_append, List.sum_append,
      List.sum_append]
    simp only [List.map_cons, List.map_nil, List.sum_cons, List.sum_nil, add_zero]
    constructor
    · rw [mul_add]
      exact add_le_add h1.1 h2l
    · rw [mul_add]
      exact add_le_add h1.2 h2r

theorem sum_map_div (l : List ℚ) (s : ℚ) :
    (l.map (fun c => c / s)).sum = l.sum / s := by
  induction l with
  | nil => simp
  | cons x xs ih => simp [ih, add_div]

-- Properties of the Savitzky-Golay coefficients.

theorem computeSGCoefficients_length (w : ℕ) :
    (computeSGCoefficients w).length = 2 * (w / 2) + 1 := by
  simp [computeSGCoefficients]

theorem sg_raw_pos (w : ℕ) :
    ∀ v ∈ (List.range (2 * (w / 2) + 1)).map
      (fun (k : ℕ) => 1 - |(k : ℚ) - ((w / 2 : ℕ) : ℚ)| / (((w / 2 : ℕ) : ℚ) + 1)),
      0 < v := by
  intro v hv
  obtain ⟨k, hk, rfl⟩ := List.mem_map.mp hv
  rw [List.mem_range] at hk
  set h : ℕ := w / 2
  have habs : |(k : ℚ) - (h : ℚ)| ≤ (h : ℚ) := by
    rw [abs_le]
    constructor
    · have : (k : ℚ) ≥ 0 := by positivity
      linarith
    · have : (k : ℚ) ≤ 2 * (h : ℚ) := by
        have : k ≤ 2 * h := by omega
        exact_mod_cast this
      linarith
  have hpos : (0 : ℚ) < (h : ℚ) + 1 := by positivity
  have : |(k : ℚ) - (h : ℚ)| / ((h : ℚ) + 1) ≤ (h : ℚ) / ((h : ℚ) + 1) :=
    div_le_div_of_nonneg_right habs hpos.le
  have hlt : (h : ℚ) / ((h : ℚ) + 1) < 1 := by
    rw [div_lt_one hpos]
    linarith
  linarith

theorem sg_raw_sum_pos (w : ℕ) :
    0 < ((List.range (2 * (w / 2) + 1)).map
      (fun (k : ℕ) => 1 - |(k : ℚ) - ((w / 2 : ℕ) : ℚ)| / (((w / 2 : ℕ) : ℚ) + 1))).sum := by
  apply List.sum_pos _ (sg_raw_pos w)
  simp [List.range_succ]

theorem computeSGCoefficients_nonneg (w : ℕ) :
    ∀ c ∈ computeSGCoefficients w, 0 ≤ c := by
  intro c hc
  simp only [computeSGCoefficients] at hc
  obtain ⟨v, hv, rfl⟩ := List.mem_map.mp hc
  exact div_nonneg (sg_raw_pos w v hv).le (sg_raw_sum_pos w).le

theorem computeSGCoefficients_sum (w : ℕ) :
    (computeSGCoefficients w).sum = 1 := by
  simp only [computeSGCoefficients]
  rw [sum_map_div]
  exact div_self (sg_raw_sum_pos w).ne'

-- The smoothing bound.

theorem clampScale_mem {c : ℚ} (hc : 0 ≤ c) (raw : ℚ) :
    1 - c ≤ clampScale c raw ∧ clampScale c raw ≤ 1 + c := by
  unfold clampScale
  exact ⟨le_max_left _ _, max_le (by linarith) (min_le_left _ _)⟩

theorem clampIndex_lt {len : ℕ} (hlen : 0 < len) (i : ℤ) :
    clampIndex len i < len := by
  unfold clampIndex
  omega

theorem sgSmoothAt_scale_mem (transforms : List Transform) (w : ℕ) (lo hi : ℚ)
    (hne : transforms ≠ [])
    (hmem : ∀ tr ∈ transforms, lo ≤ tr.scale ∧ tr.scale ≤ hi) (i : ℕ) :
    lo ≤ (sgSmoothAt transforms (computeSGCoefficients w) (w / 2) i).scale ∧
    (sgSmoothAt transforms (computeSGCoefficients w) (w / 2) i).scale ≤ hi := by
  have hlen : 0 < transforms.length := List.length_pos.mpr hne
  have hw : ∀ k, k < 2 * (w / 2) + 1 → 0 ≤ (computeSGCoefficients w).getD k 0 := by
    intro k hk
    have hk' : k < (computeSGCoefficients w).length := by
      rw [computeSGCoefficients_length]; omega
    rw [List.getD_eq_getElem _ _ hk']
    exact computeSGCoefficients_nonneg w _ (List.getElem_mem hk')
  have hx : ∀ k, k < 2 * (w / 2) + 1 →
      lo ≤ (transforms.getD
        (clampIndex transforms.length ((i : ℤ) + (k : ℤ) - ((w / 2 : ℕ) : ℤ)))
        ⟨0, 0, 0⟩).scale ∧
      (transforms.getD
        (clampIndex transforms.length ((i : ℤ) + (k : ℤ) - ((w / 2 : ℕ) : ℤ)))
        ⟨0, 0, 0⟩).scale ≤ hi := by
    intro k _
    have hidx := clampIndex_lt hlen ((i : ℤ) + (k : ℤ) - ((w / 2 : ℕ) : ℤ))
    rw [List.getD_eq_getElem _ _ hidx]
    exact hmem _ (List.getElem_mem hidx)
  have hsum : ((List.range (2 * (w / 2) + 1)).map
      (fun k => (computeSGCoefficients w).getD k 0)).sum = 1 := by
    have hr : List.range (2 * (w / 2) + 1) =
        List.range (computeSGCoefficients w).length := by
      rw [computeSGCoefficients_length]
    rw [hr, map_getD_range, computeSGCoefficients_sum]
  have hb := weighted_range_bounds (2 * (w / 2) + 1)
    (fun k => (computeSGCoefficients w).getD k 0)
    (fun k => (transforms.getD
      (clampIndex transforms.length ((i : ℤ) + (k : ℤ) - ((w / 2 : ℕ) : ℤ)))
      ⟨0, 0, 0⟩).scale) lo hi hw hx
  rw [hsum, mul_one, mul_one] at hb
  simpa only [sgSmoothAt] using hb

theorem savitzkyGolaySmooth_scale_mem (transforms : List Transform) (w : ℕ)
    (lo hi : ℚ) (hmem : ∀ tr ∈ transforms, lo ≤ tr.scale ∧ tr.scale ≤ hi) :
    ∀ tr ∈ savitzkyGolaySmooth transforms w, lo ≤ tr.scale ∧ tr.scale ≤ hi := by
  unfold savitzkyGolaySmooth
  split
  · exact hmem
  · rename_i hcond
    push_neg at hcond
    intro tr htr
    obtain ⟨i, _, rfl⟩ := List.mem_map.mp htr
    have hne : transforms ≠ [] := by
      intro h
      rw [h] at hcond
      simp at hcond
      omega
    exact sgSmoothAt_scale_mem transforms w lo hi hne hmem i

theorem savitzkyGolaySmooth_length (transforms : List Transform) (w : ℕ) :
    (savitzkyGolaySmooth transforms w).length = transforms.length := by
  unfold savitzkyGolaySmooth
  split
  · rfl
  · simp

/-- C1: for every input frame set, every option record with a nonnegative
`scaleClamp`, and every value of the square-root primitive, the scale of the
smoothed transform actually applied when composing each stabilized frame
lies in `[1 - scaleClamp, 1 + scaleClamp]` — the per-frame clamp survives
the temporal smoothing because the Savitzky-Golay coefficients are
nonnegative and sum to 1, so the smoothed scale is a convex combination of
clamped scales (and the under-window branch returns the clamped transforms
unchanged). -/
theorem smoothed_scale_clamped (sqrtFn : ℚ → ℚ) (opts : NormalizationOptions)
    (tiles : List ImageData) (hc : 0 ≤ opts.scaleClamp) :
    ∀ fr ∈ normalizeFrames sqrtFn opts tiles,
      1 - opts.scaleClamp ≤ fr.scale ∧ fr.scale ≤ 1 + opts.scaleClamp := by
  intro fr hfr
  simp only [normalizeFrames] at hfr
  obtain ⟨⟨a, tr⟩, hmem, rfl⟩ := List.mem_map.mp hfr
  have htr := (List.of_mem_zip hmem).2
  have hclamped : ∀ t ∈ (tiles.map (fun t => analyzeFrame t opts.alphaThreshold)).map
      (computeTransform sqrtFn opts.scaleClamp
        (robustMedian ((tiles.map (fun t => analyzeFrame t opts.alphaThreshold)).map
          FrameAnalysis.area))
        (robustMedian ((tiles.map (fun t => analyzeFrame t opts.alphaThreshold)).map
          FrameAnalysis.centroidX))
        (robustMedian ((tiles.map (fun t => analyzeFrame t opts.alphaThreshold)).map
          FrameAnalysis.centroidY))),
      1 - opts.scaleClamp ≤ t.scale ∧ t.scale ≤ 1 + opts.scaleClamp := by
    intro t ht
    obtain ⟨a', _, rfl⟩ := List.mem_map.mp ht
    simp only [computeTransform]
    exact clampScale_mem hc _
  exact savitzkyGolaySmooth_scale_mem _ opts.smoothWindow _ _ hclamped tr htr

/-- Closed instantiation of `smoothed_scale_clamped` on two 1×1 tiles, the
second fully transparent (a degenerate extreme-area frame), with the default
options. -/
theorem smoothed_scale_clamped_witness :
    0 ≤ defaultOptions.scaleClamp ∧
    ∀ fr ∈ normalizeFrames id defaultOptions
        [⟨1, 1, [0, 0, 0, 255]⟩, ⟨1, 1, [0, 0, 0, 0]⟩],
      1 - defaultOptions.scaleClamp ≤ fr.scale ∧
      fr.scale ≤ 1 + defaultOptions.scaleClamp :=
  ⟨by norm_num [defaultOptions],
   smoothed_scale_clamped id defaultOptions
     [⟨1, 1, [0, 0, 0, 255]⟩, ⟨1, 1, [0, 0, 0, 0]⟩]
     (by norm_num [defaultOptions])⟩

-- === areaDrift and the degenerate all-empty frame set (C10) ===

theorem analyzeFrame_area_of_empty {img : ImageData} {th : ℚ}
    (h : foregroundPixels img ⌊th * 255⌋ = []) :
    (analyzeFrame img th).area = 0 := by
  simp [analyzeFrame, h]

theorem getD_zero_of_all_zero {l : List ℚ} (h : ∀ v ∈ l, v = 0) (i : ℕ) :
    l.getD i 0 = 0 := by
  rw [List.getD_eq_getElem?_getD]
  cases hx : l[i]? with
  | none => rfl
  | some a => simpa using h a (List.getElem?_mem hx)

theorem mem_insertSortedQ {v x : ℚ} : ∀ {l : List ℚ},
    v ∈ insertSortedQ x l → v = x ∨ v ∈ l := by
  intro l
  induction l with
  | nil => simp [insertSortedQ]
  | cons y ys ih =>
    simp only [insertSortedQ]
    split
    · intro hv
      rcases List.mem_cons.mp hv with h | h
      · exact Or.inl h
      · exact Or.inr h
    · intro hv
      rcases List.mem_cons.mp hv with h | h
      · exact Or.inr (List.mem_cons.mpr (Or.inl h))
      · rcases ih h with h' | h'
        · exact Or.inl h'
        · exact Or.inr (List.mem_cons.mpr (Or.inr h'))

theorem mem_sortQ {v : ℚ} : ∀ {l : List ℚ}, v ∈ sortQ l → v ∈ l := by
  intro l
  induction l with
  | nil => simp [sortQ]
  | cons x xs ih =>
    simp only [sortQ]
    intro hv
    rcases mem_insertSortedQ hv with h | h
    · exact List.mem_cons.mpr (Or.inl h)
    · exact List.mem_cons.mpr (Or.inr (ih h))

theorem robustMedian_all_zero {l : List ℚ} (h : ∀ v ∈ l, v = 0) :
    robustMedian l = 0 := by
  have hz : ∀ v ∈ sortQ l, v = 0 := fun v hv => h v (mem_sortQ hv)
  unfold robustMedian
  split
  · rfl
  · show (if (sortQ l).length % 2 ≠ 0 then (sortQ l).getD ((sortQ l).length / 2) 0
      else ((sortQ l).getD ((sortQ l).length / 2 - 1) 0 +
        (sortQ l).getD ((sortQ l).length / 2) 0) / 2) = 0
    split
    · exact getD_zero_of_all_zero hz _
    · rw [getD_zero_of_all_zero hz, getD_zero_of_all_zero hz]
      norm_num

theorem foldl_jmax2_none : ∀ (ts : List (Option ℚ)), ts.foldl jmax2 none = none := by
  intro ts
  induction ts with
  | nil => rfl
  | cons t ts ih =>
    have : jmax2 none t = none := by cases t <;> rfl
    simp only [List.foldl_cons, this, ih]

theorem normalizeFrames_length (sqrtFn : ℚ → ℚ) (opts : NormalizationOptions)
    (tiles : List ImageData) :
    (normalizeFrames sqrtFn opts tiles).length = tiles.length := by
  simp [normalizeFrames, savitzkyGolaySmooth_length]

theorem foldl_max_spec (f : ℚ → ℚ) :
    ∀ (l : List ℚ) (x : ℚ),
      x ≤ l.foldl (fun acc v => max acc (f v)) x ∧
      (∀ v ∈ l, f v ≤ l.foldl (fun acc v => max acc (f v)) x) ∧
      (l.foldl (fun acc v => max acc (f v)) x = x ∨
        ∃ v ∈ l, l.foldl (fun acc v => max acc (f v)) x = f v) := by
  intro l
  induction l with
  | nil => exact fun x => ⟨le_refl x, by simp, Or.inl rfl⟩
  | cons y ys ih =>
    intro x
    simp only [List.foldl_cons]
    obtain ⟨h1, h2, h3⟩ := ih (max x (f y))
    refine ⟨le_trans (le_max_left _ _) h1, ?_, ?_⟩
    · intro v hv
      rcases List.mem_cons.mp hv with rfl | hv'
      · exact le_trans (le_max_right _ _) h1
      · exact h2 v hv'
    · rcases h3 with h | ⟨v, hv, hval⟩
      · rcases max_choice x (f y) with hm | hm
        · exact Or.inl (h.trans hm)
        · exact Or.inr ⟨y, List.mem_cons_self _ _, h.trans hm⟩
      · exact Or.inr ⟨v, List.mem_cons.mpr (Or.inr hv), hval⟩

theorem foldl_jmax2_somes (f : ℚ → ℚ) :
    ∀ (l : List ℚ) (x : ℚ),
      (l.map (fun a => some (f a))).foldl jmax2 (some x) =
        some (l.foldl (fun acc v => max acc (f v)) x) := by
  intro l
  induction l with
  | nil => intro x; rfl
  | cons y ys ih =>
    intro x
    simp only [List.map_cons, List.foldl_cons, jmax2]
    exact ih (max x (f y))

theorem jmaxList_map_some (f : ℚ → ℚ) (a : ℚ) (l : List ℚ) :
    jmaxList ((a :: l).map (fun v => some (f v))) =
      some (l.foldl (fun acc v => max acc (f v)) (f a)) := by
  simp only [List.map_cons, jmaxList]
  exact foldl_jmax2_somes f l (f a)

theorem computeMetrics_areaDrift (sqrtFn : ℚ → ℚ)
    (frames : List NormalizedFrame) (h : frames ≠ []) :
    (computeMetrics sqrtFn frames).areaDrift =
      jmaxList ((frames.map NormalizedFrame.area).map (fun a =>
        (jdiv |a - robustMedian (frames.map NormalizedFrame.area)|
          (robustMedian (frames.map NormalizedFrame.area))).map
          (fun q => q * 100))) := by
  unfold computeMetrics
  rw [if_neg h]

/-- C10: `computeMetrics` divides by the median frame area with no zero
guard.  If every input tile's thresholded foreground is empty (the
all-degenerate case) every final area is 0, the median is 0, each drift
term is a 0/0 division, and the reported `areaDrift` is not a finite number
(`none`), even though all output frames are still produced (one per tile);
for any frame set whose median area is positive, `areaDrift` is finite and
equals the maximum absolute percentage deviation of any frame's final area
from the median. -/
theorem areaDrift_zero_median_unguarded (sqrtFn : ℚ → ℚ)
    (opts : NormalizationOptions) (tiles : List ImageData) (hne : tiles ≠ [])
    (hempty : ∀ t ∈ tiles, foregroundPixels t ⌊opts.alphaThreshold * 255⌋ = []) :
    (normalizeSprite sqrtFn opts tiles).2.areaDrift = none ∧
    (normalizeSprite sqrtFn opts tiles).1.length = tiles.length ∧
    (∀ frames : List NormalizedFrame, frames ≠ [] →
      0 < robustMedian (frames.map NormalizedFrame.area) →
      ∃ d : ℚ, (computeMetrics sqrtFn frames).areaDrift = some d ∧
        (∀ a ∈ frames.map NormalizedFrame.area,
          |a - robustMedian (frames.map NormalizedFrame.area)| /
            robustMedian (frames.map NormalizedFrame.area) * 100 ≤ d) ∧
        (∃ a ∈ frames.map NormalizedFrame.area,
          d = |a - robustMedian (frames.map NormalizedFrame.area)| /
            robustMedian (frames.map NormalizedFrame.area) * 100)) := by
  have hlen : (normalizeFrames sqrtFn opts tiles).length = tiles.length :=
    normalizeFrames_length sqrtFn opts tiles
  have hfne : normalizeFrames sqrtFn opts tiles ≠ [] := by
    intro h
    rw [h] at hlen
    exact hne (List.length_eq_zero.mp hlen.symm)
  have hareas : ∀ fr ∈ normalizeFrames sqrtFn opts tiles, fr.area = 0 := by
    intro fr hfr
    simp only [normalizeFrames] at hfr
    obtain ⟨⟨a, tr⟩, hmem, rfl⟩ := List.mem_map.mp hfr
    have ha := (List.of_mem_zip hmem).1
    obtain ⟨t, ht, rfl⟩ := List.mem_map.mp ha
    have : (analyzeFrame t opts.alphaThreshold).area = 0 :=
      analyzeFrame_area_of_empty (hempty t ht)
    simp [this]
  refine ⟨?_, hlen, ?_⟩
  · show (computeMetrics sqrtFn (normalizeFrames sqrtFn opts tiles)).areaDrift = none
    rw [computeMetrics_areaDrift sqrtFn _ hfne]
    have hmed : robustMedian ((normalizeFrames sqrtFn opts tiles).map
        NormalizedFrame.area) = 0 := by
      apply robustMedian_all_zero
      intro v hv
      obtain ⟨fr, hfr, rfl⟩ := List.mem_map.mp hv
      exact hareas fr hfr
    rw [hmed]
    have hterm : ((normalizeFrames sqrtFn opts tiles).map NormalizedFrame.area).map
        (fun a => (jdiv |a - 0| 0).map (fun q => q * 100)) =
        ((normalizeFrames sqrtFn opts tiles).map NormalizedFrame.area).map
          (fun _ => (none : Option ℚ)) := by
      apply List.map_congr_left
      intro a _
      simp [jdiv]
    rw [hterm]
    obtain ⟨fr, frs, hcons⟩ := List.exists_cons_of_ne_nil hfne
    rw [hcons]
    simp only [List.map_cons, jmaxList]
    exact foldl_jmax2_none _
  · intro frames hfne' hmedpos
    rw [computeMetrics_areaDrift sqrtFn _ hfne']
    obtain ⟨a0, as, hcons⟩ := List.exists_cons_of_ne_nil hfne'
    have hterm : (frames.map NormalizedFrame.area).map
        (fun a => (jdiv |a - robustMedian (frames.map NormalizedFrame.area)|
          (robustMedian (frames.map NormalizedFrame.area))).map (fun q => q * 100)) =
        (frames.map NormalizedFrame.area).map
          (fun a => some (|a - robustMedian (frames.map NormalizedFrame.area)| /
            robustMedian (frames.map NormalizedFrame.area) * 100)) := by
      apply List.map_congr_left
      intro a _
      simp [jdiv, hmedpos.ne']
    rw [hterm]
    have hlist : frames.map NormalizedFrame.area =
        a0.area :: as.map NormalizedFrame.area := by
      rw [hcons, List.map_cons]
    rw [hlist, jmaxList_map_some]
    obtain ⟨h1, h2, h3⟩ := foldl_max_spec
      (fun a => |a - robustMedian (a0.area :: as.map NormalizedFrame.area)| /
        robustMedian (a0.area :: as.map NormalizedFrame.area) * 100)
      (as.map NormalizedFrame.area)
      (|a0.area - robustMedian (a0.area :: as.map NormalizedFrame.area)| /
        robustMedian (a0.area :: as.map NormalizedFrame.area) * 100)
    refine ⟨_, rfl, ?_, ?_⟩
    · intro a ha
      rcases List.mem_cons.mp ha with rfl | ha'
      · exact h1
      · exact h2 a ha'
    · rcases h3 with h | ⟨v, hv, hval⟩
      · exact ⟨a0.area, List.mem_cons_self _ _, h⟩
      · exact ⟨v, List.mem_cons.mpr (Or.inr hv), hval⟩

/-- Closed instantiation of `areaDrift_zero_median_unguarded` on two 1×1
tiles whose alpha never exceeds the default threshold ⌊0.1·255⌋ = 25: the
reported drift is NaN (`none`). -/
theorem areaDrift_zero_median_unguarded_witness :
    ([⟨1, 1, [0, 0, 0, 0]⟩, ⟨1, 1, [0, 0, 0, 10]⟩] : List ImageData) ≠ [] ∧
    (normalizeSprite id defaultOptions
      [⟨1, 1, [0, 0, 0, 0]⟩, ⟨1, 1, [0, 0, 0, 10]⟩]).2.areaDrift = none :=
  ⟨by simp,
   (areaDrift_zero_median_unguarded id defaultOptions _ (by simp)
     (by
       have h25 : ⌊defaultOptions.alphaThreshold * 255⌋ = 25 := by
         norm_num [defaultOptions]
       rw [h25]
       intro t ht
       fin_cases ht <;> decide)).1⟩

-- === ViewerController (`OrbitViewer.tsx`) ===

/-- Viewer configuration: the component props and manifest-derived constants
read by the controller and the animation loop. -/
structure ViewerConfig where
  frameCount : ℤ
  rings : List RingConfig
  width : ℚ
  height : ℚ
  zoomMaxRaw : Option ℚ
  parallaxMaxRaw : Option ℚ
  enableZoom : Bool
  enableParallax : Bool
  enableDrag : Bool
  autoPlaySpeed : ℚ
deriving Repr, DecidableEq

/-- JavaScript `x || d` on an optional numeric configuration value: a
missing or zero (falsy) value selects the default. -/
def orDefault (raw : Option ℚ) (d : ℚ) : ℚ :=
  match raw with
  | some v => if v = 0 then d else v
  | none => d

/-- `manifest?.zoom?.max || DEFAULT_ZOOM_MAX` (1.2). -/
def zoomMax (cfg : ViewerConfig) : ℚ := orDefault cfg.zoomMaxRaw (6/5)

/-- `manifest?.parallax_max || DEFAULT_PARALLAX_MAX` (0.02). -/
def parallaxMax (cfg : ViewerConfig) : ℚ := orDefault cfg.parallaxMaxRaw (1/50)

/-- `Math.min(...rings.map(r => r.phi))` for a nonempty ring list. -/
def minPhi (rings : List RingConfig) : ℚ :=
  match rings with
  | [] => 0
  | r :: rs => rs.foldl (fun m s => min m s.phi) r.phi

/-- `Math.max(...rings.map(r => r.phi))` for a nonempty ring list. -/
def maxPhi (rings : List RingConfig) : ℚ :=
  match rings with
  | [] => 0
  | r :: rs => rs.foldl (fun m s => max m s.phi) r.phi

/-- The drag bookkeeping of `dragRef`. -/
structure DragRec where
  startX : ℚ
  startY : ℚ
  startYaw : ℚ
  startPitch : ℚ
  lastX : ℚ
  lastY : ℚ
  velX : ℚ
  velY : ℚ
deriving Repr, DecidableEq

/-- The pending animated transition of `animStateRef`; `resolveId`
identifies the promise handle returned by the `playTo` call that created
it, and appears in `settled` once that promise is resolved. -/
structure AnimState where
  targetYaw : ℚ
  targetPitch : ℚ
  targetZoom : ℚ
  startTime : ℚ
  duration : ℚ
  resolveId : ℕ
deriving Repr, DecidableEq

/-- The mutable viewer state: the `ViewerState` fields of `stateRef`, the
optional drag and transition records, plus promise bookkeeping (`nextId`
numbers the handles returned by `playTo`; `settled` lists the handles whose
`resolve` has been called). -/
structure VState where
  yaw : ℚ
  pitch : ℚ
  zoom : ℚ
  parallax : ℚ
  frameIndex : ℤ
  isDragging : Bool
  isPlaying : Bool
  drag : Option DragRec
  anim : Option AnimState
  nextId : ℕ
  settled : List ℕ
deriving Repr, DecidableEq

/-- `controller.setYaw(thetaDeg, opts)`: normalize into `[0, 360)` and
optionally snap to the nearest discrete frame angle. -/
def setYaw (cfg : ViewerConfig) (s : VState) (θ : ℚ) (snap : Bool) : VState :=
  let normalized := normalizeAngle θ
  if snap then
    { s with yaw := (360 / (cfg.frameCount : ℚ)) *
        ((phaseParams normalized cfg.frameCount).i : ℚ) }
  else
    { s with yaw := normalized }

/-- `controller.setPitch(phiDeg)`: clamp to the available ring range. -/
def setPitch (cfg : ViewerConfig) (s : VState) (φ : ℚ) : VState :=
  { s with pitch := max (minPhi cfg.rings) (min (maxPhi cfg.rings) φ) }

/-- `controller.setZoom(z)`: no-op when zoom is disabled, otherwise clamp to
`[1, zoomMax]`. -/
def setZoom (cfg : ViewerConfig) (s : VState) (z : ℚ) : VState :=
  if cfg.enableZoom = false then s
  else { s with zoom := max 1 (min (zoomMax cfg) z) }

/-- `controller.setParallax(p)`: no-op when parallax is disabled, otherwise
clamp to `[0, parallaxMax]`. -/
def setParallax (cfg : ViewerConfig) (s : VState) (p : ℚ) : VState :=
  if cfg.enableParallax = false then s
  else { s with parallax := max 0 (min (parallaxMax cfg) p) }

/-- `controller.pause()`. -/
def pause (s : VState) : VState := { s with isPlaying := false }

/-- `controller.resume()`. -/
def resume (s : VState) : VState := { s with isPlaying := true }

/-- `controller.playTo(yaw, pitch, secs, ease)`: unconditionally overwrites
`animStateRef.current` with a fresh transition holding a fresh promise
handle (returned as the second component).  The previous transition's
`resolve` is simply discarded. -/
def playTo (s : VState) (yaw pitch secs now : ℚ) : VState × ℕ :=
  ({ s with
      anim := some ⟨yaw, pitch, s.zoom, now, secs * 1000, s.nextId⟩,
      nextId := s.nextId + 1 },
   s.nextId)

/-- `easeInOutCubic` from `OrbitViewer.tsx`. -/
def easeInOutCubic (t : ℚ) : ℚ :=
  if t < 1/2 then 4 * t ^ 3 else 1 - (-2 * t + 2) ^ 3 / 2

/-- One `animate(timestamp)` tick: advance a pending transition by elapsed
wall-clock time with cubic easing, resolving it at completion; then, when
playing, not dragging and no transition pending, advance yaw by the fixed
per-frame amount `autoPlaySpeed / 60` and wrap at 360. -/
def animateStep (cfg : ViewerConfig) (s : VState) (timestamp : ℚ) : VState :=
  let s1 :=
    match s.anim with
    | none => s
    | some a =>
      let elapsed := timestamp - a.startTime
      let progress := min (elapsed / a.duration) 1
      let eased := easeInOutCubic progress
      let currentYaw := s.yaw + (a.targetYaw - s.yaw) * eased
      let currentPitch := s.pitch + (a.targetPitch - s.pitch) * eased
      let s' := { s with yaw := currentYaw, pitch := currentPitch }
      if 1 ≤ progress then
        { s' with
            yaw := a.targetYaw
            pitch := a.targetPitch
            anim := none
            settled := a.resolveId :: s'.settled }
      else s'
  if s1.isPlaying = true ∧ s1.isDragging = false ∧ s1.anim = none then
    { s1 with yaw := jsRem (s1.yaw + cfg.autoPlaySpeed / 60) 360 }
  else s1

/-- `handlePointerDown`: when dragging is enabled, capture the start
position and the pre-drag yaw/pitch baseline. -/
def handlePointerDown (cfg : ViewerConfig) (s : VState) (x y : ℚ) : VState :=
  if cfg.enableDrag = false then s
  else
    { s with
        drag := some ⟨x, y, s.yaw, s.pitch, x, y, 0, 0⟩
        isDragging := true }

/-- `handlePointerMove`: update the exponentially smoothed velocity, then
set yaw/pitch from the cumulative delta × sensitivity (0.5 for yaw, 0.25
for pitch) through the clamping setters. -/
def handlePointerMove (cfg : ViewerConfig) (s : VState) (x y : ℚ) : VState :=
  match s.drag with
  | none => s
  | some d =>
    if s.isDragging = false then s
    else
      let dx := x - d.lastX
      let dy := y - d.lastY
      let d' := { d with
        velX := dx * (1/2) + d.velX * (1/2)
        velY := dy * (1/2) + d.velY * (1/2)
        lastX := x
        lastY := y }
      let totalDx := x - d.startX
      let totalDy := y - d.startY
      let newYaw := d.startYaw - totalDx * (1/2)
      let newPitch := d.startPitch + totalDy * (1/2) * (1/2)
      setPitch cfg (setYaw cfg { s with drag := some d' } newYaw false) newPitch

/-- `handlePointerUp`: end the drag.  The only state effects are clearing
`isDragging` and the drag record (the momentum check has an empty body);
yaw and pitch keep whatever the last pointer-move set. -/
def handlePointerUp (s : VState) : VState :=
  match s.drag with
  | none => s
  | some _ => { s with isDragging := false, drag := none }

/-- The §3 state invariants. -/
def Invariants (cfg : ViewerConfig) (s : VState) : Prop :=
  0 ≤ s.yaw ∧ s.yaw < 360 ∧
  minPhi cfg.rings ≤ s.pitch ∧ s.pitch ≤ maxPhi cfg.rings ∧
  1 ≤ s.zoom ∧ s.zoom ≤ zoomMax cfg ∧
  0 ≤ s.parallax ∧ s.parallax ≤ parallaxMax cfg

/-- Three-ring test configuration matching `FULL_SPHERE_RINGS`, the default
viewport and `autoPlaySpeed = 30`. -/
def testConfig : ViewerConfig :=
  { frameCount := 12, rings := [⟨-15, 1, none⟩, ⟨0, 1, none⟩, ⟨15, 1, none⟩],
    width := 584, height := 438, zoomMaxRaw := none, parallaxMaxRaw := none,
    enableZoom := true, enableParallax := true, enableDrag := true,
    autoPlaySpeed := 30 }

/-- The initial `stateRef` contents for default props (before autoplay). -/
def initialState : VState :=
  { yaw := 0, pitch := 0, zoom := 1, parallax := 0, frameIndex := 0,
    isDragging := false, isPlaying := false, drag := none, anim := none,
    nextId := 0, settled := [] }

/-- `initialState` with autoplay running. -/
def playingState : VState := { initialState with isPlaying := true }

theorem foldl_min_le_init (l : List RingConfig) :
    ∀ x : ℚ, l.foldl (fun m s => min m s.phi) x ≤ x := by
  induction l with
  | nil => exact fun x => le_refl x
  | cons r rs ih =>
    intro x
    exact le_trans (ih (min x r.phi)) (min_le_left _ _)

theorem init_le_foldl_max (l : List RingConfig) :
    ∀ x : ℚ, x ≤ l.foldl (fun m s => max m s.phi) x := by
  induction l with
  | nil => exact fun x => le_refl x
  | cons r rs ih =>
    intro x
    exact le_trans (le_max_left _ _) (ih (max x r.phi))

theorem minPhi_le_maxPhi {rings : List RingConfig} (h : rings ≠ []) :
    minPhi rings ≤ maxPhi rings := by
  cases rings with
  | nil => exact absurd rfl h
  | cons r rs =>
    exact le_trans (foldl_min_le_init rs r.phi) (init_le_foldl_max rs r.phi)

theorem easeInOutCubic_mem {t : ℚ} (h0 : 0 ≤ t) (h1 : t ≤ 1) :
    0 ≤ easeInOutCubic t ∧ easeInOutCubic t ≤ 1 := by
  unfold easeInOutCubic
  split
  · rename_i hlt
    constructor
    · positivity
    · have hcube : t ^ 3 ≤ (1/2 : ℚ) ^ 3 := pow_le_pow_left₀ h0 (by linarith) 3
      nlinarith
  · rename_i hge
    push_neg at hge
    have hu0 : (0 : ℚ) ≤ -2 * t + 2 := by linarith
    have hu1 : -2 * t + 2 ≤ 1 := by linarith
    constructor
    · nlinarith [pow_le_one₀ hu0 hu1 (n := 3)]
    · nlinarith [pow_nonneg hu0 3]

theorem lerp_between (a b e : ℚ) (he0 : 0 ≤ e) (he1 : e ≤ 1) :
    min a b ≤ a + (b - a) * e ∧ a + (b - a) * e ≤ max a b := by
  rcases le_total a b with hab | hab
  · rw [min_eq_left hab, max_eq_right hab]
    constructor <;> nlinarith [mul_nonneg (by linarith : (0:ℚ) ≤ b - a) he0]
  · rw [min_eq_right hab, max_eq_left hab]
    constructor <;> nlinarith [mul_nonneg (by linarith : (0:ℚ) ≤ a - b) he0]

theorem setYaw_invariants (cfg : ViewerConfig) (hframe : 0 < cfg.frameCount)
    (s : VState) (hs : Invariants cfg s) (θ : ℚ) (snap : Bool) :
    Invariants cfg (setYaw cfg s θ snap) := by
  obtain ⟨_, _, h3, h4, h5, h6, h7, h8⟩ := hs
  have hnq : (0 : ℚ) < (cfg.frameCount : ℚ) := by exact_mod_cast hframe
  unfold setYaw
  split
  · have hu : 0 ≤ normalizeAngle θ / (360 / (cfg.frameCount : ℚ)) :=
      div_nonneg (normalizeAngle_mem θ).1 (by positivity)
    have hfl : 0 ≤ ⌊normalizeAngle θ / (360 / (cfg.frameCount : ℚ))⌋ :=
      Int.floor_nonneg.mpr hu
    have hi : (phaseParams (normalizeAngle θ) cfg.frameCount).i =
        ⌊normalizeAngle θ / (360 / (cfg.frameCount : ℚ))⌋ % cfg.frameCount := by
      simp only [phaseParams,
        normalizeAngle_of_mem (normalizeAngle_mem θ).1 (normalizeAngle_mem θ).2]
      exact Int.tmod_eq_emod hfl hframe.le
    have hi0 : 0 ≤ (phaseParams (normalizeAngle θ) cfg.frameCount).i := by
      rw [hi]
      exact Int.emod_nonneg _ hframe.ne'
    have hi1 : (phaseParams (normalizeAngle θ) cfg.frameCount).i ≤ cfg.frameCount - 1 := by
      rw [hi]
      have := Int.emod_lt_of_pos ⌊normalizeAngle θ / (360 / (cfg.frameCount : ℚ))⌋ hframe
      omega
    have hiq0 : (0 : ℚ) ≤ ((phaseParams (normalizeAngle θ) cfg.frameCount).i : ℚ) := by
      exact_mod_cast hi0
    have hiq1 : ((phaseParams (normalizeAngle θ) cfg.frameCount).i : ℚ) ≤
        (cfg.frameCount : ℚ) - 1 := by
      exact_mod_cast hi1
    refine ⟨by positivity, ?_, h3, h4, h5, h6, h7, h8⟩
    calc 360 / (cfg.frameCount : ℚ) * ((phaseParams (normalizeAngle θ) cfg.frameCount).i : ℚ)
        ≤ 360 / (cfg.frameCount : ℚ) * ((cfg.frameCount : ℚ) - 1) := by
          exact mul_le_mul_of_nonneg_left hiq1 (by positivity)
      _ = 360 - 360 / (cfg.frameCount : ℚ) := by field_simp; ring
      _ < 360 := by
          have : 0 < 360 / (cfg.frameCount : ℚ) := by positivity
          linarith
  · exact ⟨(normalizeAngle_mem θ).1, (normalizeAngle_mem θ).2, h3, h4, h5, h6, h7, h8⟩

theorem setPitch_invariants (cfg : ViewerConfig) (hrings : cfg.rings ≠ [])
    (s : VState) (hs : Invariants cfg s) (φ : ℚ) :
    Invariants cfg (setPitch cfg s φ) := by
  obtain ⟨h1, h2, _, _, h5, h6, h7, h8⟩ := hs
  refine ⟨h1, h2, le_max_left _ _,
    max_le (minPhi_le_maxPhi hrings) (min_le_left _ _), h5, h6, h7, h8⟩

theorem setZoom_invariants (cfg : ViewerConfig) (hzoom : 1 ≤ zoomMax cfg)
    (s : VState) (hs : Invariants cfg s) (z : ℚ) :
    Invariants cfg (setZoom cfg s z) := by
  obtain ⟨h1, h2, h3, h4, h5, h6, h7, h8⟩ := hs
  unfold setZoom
  split
  · exact ⟨h1, h2, h3, h4, h5, h6, h7, h8⟩
  · exact ⟨h1, h2, h3, h4, le_max_left _ _, max_le hzoom (min_le_left _ _), h7, h8⟩

theorem setParallax_invariants (cfg : ViewerConfig)
    (hpar : 0 ≤ parallaxMax cfg) (s : VState) (hs : Invariants cfg s) (p : ℚ) :
    Invariants cfg (setParallax cfg s p) := by
  obtain ⟨h1, h2, h3, h4, h5, h6, h7, h8⟩ := hs
  unfold setParallax
  split
  · exact ⟨h1, h2, h3, h4, h5, h6, h7, h8⟩
  · exact ⟨h1, h2, h3, h4, h5, h6, le_max_left _ _, max_le hpar (min_le_left _ _)⟩

theorem playTo_invariants (cfg : ViewerConfig) (s : VState)
    (hs : Invariants cfg s) (yaw pitch secs now : ℚ) :
    Invariants cfg (playTo s yaw pitch secs now).1 := hs

theorem pause_invariants (cfg : ViewerConfig) (s : VState)
    (hs : Invariants cfg s) : Invariants cfg (pause s) := hs

theorem resume_invariants (cfg : ViewerConfig) (s : VState)
    (hs : Invariants cfg s) : Invariants cfg (resume s) := hs

theorem autoBranch_invariants (cfg : ViewerConfig)
    (hspeed : 0 ≤ cfg.autoPlaySpeed) (s1 : VState) (h : Invariants cfg s1) :
    Invariants cfg
      (if s1.isPlaying = true ∧ s1.isDragging = false ∧ s1.anim = none then
        { s1 with yaw := jsRem (s1.yaw + cfg.autoPlaySpeed / 60) 360 }
      else s1) := by
  split
  · obtain ⟨h1, _, h3, h4, h5, h6, h7, h8⟩ := h
    have harg : 0 ≤ s1.yaw + cfg.autoPlaySpeed / 60 := by positivity
    obtain ⟨hy0, hy1⟩ := jsRem_mem_of_nonneg harg (by norm_num : (0:ℚ) < 360)
    exact ⟨hy0, hy1, h3, h4, h5, h6, h7, h8⟩
  · exact h

theorem animateStep_invariants (cfg : ViewerConfig)
    (hspeed : 0 ≤ cfg.autoPlaySpeed) (s : VState) (t : ℚ)
    (hs : Invariants cfg s)
    (htargets : ∀ a, s.anim = some a →
      0 ≤ a.targetYaw ∧ a.targetYaw < 360 ∧
      minPhi cfg.rings ≤ a.targetPitch ∧ a.targetPitch ≤ maxPhi cfg.rings ∧
      a.startTime ≤ t ∧ 0 < a.duration) :
    Invariants cfg (animateStep cfg s t) := by
  unfold animateStep
  apply autoBranch_invariants cfg hspeed
  split
  · exact hs
  · rename_i a han
    obtain ⟨hty0, hty1, htp0, htp1, hst, hdur⟩ := htargets a han
    obtain ⟨h1, h2, h3, h4, h5, h6, h7, h8⟩ := hs
    have hp0 : 0 ≤ min ((t - a.startTime) / a.duration) 1 :=
      le_min (div_nonneg (by linarith) hdur.le) (by norm_num)
    have hp1 : min ((t - a.startTime) / a.duration) 1 ≤ 1 := min_le_right _ _
    obtain ⟨he0, he1⟩ := easeInOutCubic_mem hp0 hp1
    obtain ⟨hyl, hyu⟩ := lerp_between s.yaw a.targetYaw _ he0 he1
    obtain ⟨hpl, hpu⟩ := lerp_between s.pitch a.targetPitch _ he0 he1
    have hyaw0 : 0 ≤ s.yaw + (a.targetYaw - s.yaw) * easeInOutCubic
        (min ((t - a.startTime) / a.duration) 1) :=
      le_trans (le_min h1 hty0) hyl
    have hyaw1 : s.yaw + (a.targetYaw - s.yaw) * easeInOutCubic
        (min ((t - a.startTime) / a.duration) 1) < 360 :=
      lt_of_le_of_lt hyu (max_lt h2 hty1)
    have hpit0 : minPhi cfg.rings ≤ s.pitch + (a.targetPitch - s.pitch) *
        easeInOutCubic (min ((t - a.startTime) / a.duration) 1) :=
      le_trans (le_min h3 htp0) hpl
    have hpit1 : s.pitch + (a.targetPitch - s.pitch) * easeInOutCubic
        (min ((t - a.startTime) / a.duration) 1) ≤ maxPhi cfg.rings :=
      le_trans hpu (max_le h4 htp1)
    dsimp only
    split
    · exact ⟨hty0, hty1, htp0, htp1, h5, h6, h7, h8⟩
    · exact ⟨hyaw0, hyaw1, hpit0, hpit1, h5, h6, h7, h8⟩

/-- C6 (amended): every ViewerController operation — the four clamping
setters, `playTo`, `pause`, `resume` — preserves the state invariants
(yaw ∈ [0,360), pitch within the ring range, zoom ∈ [1, zoomMax],
parallax ∈ [0, parallaxMax]); out-of-range pitch/zoom/parallax requests are
silently clamped and never throw.  An auto-rotation tick also preserves
them, and a transition tick preserves them provided the pending `playTo`
target itself respects the ranges — but NOT for an arbitrary target (see
the counterexample: the transition writes the raw target unclamped). -/
theorem controller_invariants (cfg : ViewerConfig) (hframe : 0 < cfg.frameCount)
    (hrings : cfg.rings ≠ []) (hzoom : 1 ≤ zoomMax cfg)
    (hpar : 0 ≤ parallaxMax cfg) (hspeed : 0 ≤ cfg.autoPlaySpeed)
    (s : VState) (hs : Invariants cfg s) :
    (∀ θ snap, Invariants cfg (setYaw cfg s θ snap)) ∧
    (∀ φ, Invariants cfg (setPitch cfg s φ)) ∧
    (∀ z, Invariants cfg (setZoom cfg s z)) ∧
    (∀ p, Invariants cfg (setParallax cfg s p)) ∧
    (∀ yaw pitch secs now, Invariants cfg (playTo s yaw pitch secs now).1) ∧
    Invariants cfg (pause s) ∧ Invariants cfg (resume s) ∧
    (∀ t, (∀ a, s.anim = some a →
        0 ≤ a.targetYaw ∧ a.targetYaw < 360 ∧
        minPhi cfg.rings ≤ a.targetPitch ∧ a.targetPitch ≤ maxPhi cfg.rings ∧
        a.startTime ≤ t ∧ 0 < a.duration) →
      Invariants cfg (animateStep cfg s t)) :=
  ⟨fun θ snap => setYaw_invariants cfg hframe s hs θ snap,
   fun φ => setPitch_invariants cfg hrings s hs φ,
   fun z => setZoom_invariants cfg hzoom s hs z,
   fun p => setParallax_invariants cfg hpar s hs p,
   fun yaw pitch secs now => playTo_invariants cfg s hs yaw pitch secs now,
   pause_invariants cfg s hs, resume_invariants cfg s hs,
   fun t ht => animateStep_invariants cfg hspeed s t hs ht⟩

/-- C6, counterexample to the unrestricted claim: with rings at pitches
{−15, 0, 15}, a `playTo` targeting pitch 100 drives the stored pitch to 100
at the completion tick — the transition writes the raw target with no
clamp, so the pitch invariant `pitch ≤ 15` is violated. -/
theorem transition_escapes_bounds :
    (animateStep testConfig (playTo initialState 90 100 1 0).1 2000).pitch = 100 ∧
    maxPhi testConfig.rings = 15 := by
  constructor
  · norm_num [animateStep, playTo, initialState, testConfig, easeInOutCubic,
      jsRem, jsTrunc]
  · norm_num [maxPhi, testConfig]

/-- Closed instantiation of `controller_invariants` on the three-ring test
configuration at the initial state: a `setPitch(40)` request (outside the
ring range) and a render tick both keep the invariants. -/
theorem controller_invariants_witness :
    Invariants testConfig (setPitch testConfig initialState 40) ∧
    Invariants testConfig (animateStep testConfig initialState 16) := by
  have hs : Invariants testConfig initialState := by
    refine ⟨by norm_num [initialState], by norm_num [initialState], ?_, ?_, ?_, ?_, ?_, ?_⟩ <;>
      norm_num [initialState, testConfig, minPhi, maxPhi, zoomMax, parallaxMax, orDefault]
  have h := controller_invariants testConfig (by norm_num [testConfig])
    (by simp [testConfig]) (by norm_num [zoomMax, orDefault, testConfig])
    (by norm_num [parallaxMax, orDefault, testConfig])
    (by norm_num [testConfig]) initialState hs
  exact ⟨h.2.1 40, h.2.2.2.2.2.2.2 16 (by simp [initialState])⟩

/-- C4 (code bug): the auto-rotation branch of `animate` adds the fixed
per-frame amount `autoPlaySpeed / 60` to yaw, never reading the timestamp,
so the advance is identical whatever wall-clock time elapsed between ticks
(30°/s × 1/60 s = 0.5° per tick, correct only at exactly 60 fps) — the
rotation rate is proportional to the host's refresh rate, contradicting the
wall-clock-scaled behavior the specification (and the code's own
`// degrees per second` comment) describe. -/
theorem autoRotation_fixed_step :
    (animateStep testConfig playingState 16).yaw = 1/2 ∧
    (animateStep testConfig playingState 100).yaw = 1/2 ∧
    ∀ t₁ t₂ : ℚ, (animateStep testConfig playingState t₁).yaw =
      (animateStep testConfig playingState t₂).yaw := by
  refine ⟨?_, ?_, ?_⟩
  · norm_num [animateStep, playingState, initialState, testConfig, jsRem, jsTrunc]
  · norm_num [animateStep, playingState, initialState, testConfig, jsRem, jsTrunc]
  · intro t₁ t₂
    rfl

/-- C5, counterexample: with the default 584-px viewport, a 10-px leftward
drag (far below the claimed `width/3 ≈ 194.67` threshold) ends on pointer-up
with yaw = 355° — the value set by the last pointer-move — not the pre-drag
yaw 0, and with no revert transition pending. -/
theorem pointerUp_counterexample :
    (handlePointerUp (handlePointerMove testConfig
        (handlePointerDown testConfig initialState 0 0) 10 0)).yaw = 355 ∧
    (handlePointerUp (handlePointerMove testConfig
        (handlePointerDown testConfig initialState 0 0) 10 0)).anim = none ∧
    (10 : ℚ) < testConfig.width / 3 := by
  have hna : normalizeAngle (-5 : ℚ) = 355 := by
    rw [normalizeAngle_eq, Int.fract]
    norm_num
  refine ⟨?_, ?_, by norm_num [testConfig]⟩ <;>
    norm_num [handlePointerUp, handlePointerMove, handlePointerDown, setYaw,
      setPitch, testConfig, initialState, hna, minPhi, maxPhi]

/-- C5 (amended): `handlePointerUp` performs no threshold test and triggers
neither a revert nor a snap-to-frame: yaw, pitch and any pending transition
are left exactly as the last pointer-move set them; when a drag was active
it merely clears `isDragging` and the drag record and the drag-end event is
emitted. -/
theorem pointerUp_no_revert_no_commit (s : VState) :
    (handlePointerUp s).yaw = s.yaw ∧ (handlePointerUp s).pitch = s.pitch ∧
    (handlePointerUp s).anim = s.anim ∧
    (s.drag ≠ none → (handlePointerUp s).isDragging = false ∧
      (handlePointerUp s).drag = none) := by
  unfold handlePointerUp
  cases h : s.drag with
  | none => exact ⟨rfl, rfl, rfl, fun hc => absurd rfl hc⟩
  | some d => exact ⟨rfl, rfl, rfl, fun _ => ⟨rfl, rfl⟩⟩

/-- Closed instantiation of `pointerUp_no_revert_no_commit` right after a
pointer-down at the initial state. -/
theorem pointerUp_no_revert_no_commit_witness :
    (handlePointerUp (handlePointerDown testConfig initialState 0 0)).isDragging
      = false ∧
    (handlePointerUp (handlePointerDown testConfig initialState 0 0)).drag
      = none :=
  (pointerUp_no_revert_no_commit
    (handlePointerDown testConfig initialState 0 0)).2.2.2
    (by simp [handlePointerDown, testConfig, initialState])

-- === Promise supersession (C3) ===

/-- The external stimuli that touch viewer state: controller calls, pointer
events and render ticks. -/
inductive VEvent where
  | play (yaw pitch secs now : ℚ)
  | tick (t : ℚ)
  | down (x y : ℚ)
  | move (x y : ℚ)
  | up
  | yawEv (θ : ℚ) (snap : Bool)
  | pitchEv (φ : ℚ)
  | zoomEv (z : ℚ)
  | parallaxEv (p : ℚ)
  | pauseEv
  | resumeEv
deriving Repr, DecidableEq

/-- Dispatch one stimulus to the corresponding state operation. -/
def stepEvent (cfg : ViewerConfig) (s : VState) : VEvent → VState
  | .play y p secs now => (playTo s y p secs now).1
  | .tick t => animateStep cfg s t
  | .down x y => handlePointerDown cfg s x y
  | .move x y => handlePointerMove cfg s x y
  | .up => handlePointerUp s
  | .yawEv θ snap => setYaw cfg s θ snap
  | .pitchEv φ => setPitch cfg s φ
  | .zoomEv z => setZoom cfg s z
  | .parallaxEv p => setParallax cfg s p
  | .pauseEv => pause s
  | .resumeEv => resume s

/-- Run a sequence of stimuli. -/
def runEvents (cfg : ViewerConfig) (s : VState) (evs : List VEvent) : VState :=
  evs.foldl (stepEvent cfg) s

/-- A promise handle that no live part of the state can ever resolve: it is
not yet settled, no pending transition holds it, and every future `playTo`
allocates a strictly larger id. -/
def HandleFree (id : ℕ) (s : VState) : Prop :=
  id ∉ s.settled ∧ (∀ a, s.anim = some a → a.resolveId ≠ id) ∧ id < s.nextId

theorem autoBranch_handleFree {id : ℕ} (cfg : ViewerConfig) (s1 : VState)
    (h : HandleFree id s1) :
    HandleFree id
      (if s1.isPlaying = true ∧ s1.isDragging = false ∧ s1.anim = none then
        { s1 with yaw := jsRem (s1.yaw + cfg.autoPlaySpeed / 60) 360 }
      else s1) := by
  split
  · exact ⟨h.1, h.2.1, h.2.2⟩
  · exact h

theorem stepEvent_handleFree {id : ℕ} {cfg : ViewerConfig} {s : VState}
    (h : HandleFree id s) : ∀ ev, HandleFree id (stepEvent cfg s ev) := by
  obtain ⟨h1, h2, h3⟩ := h
  intro ev
  cases ev with
  | play y p secs now =>
    refine ⟨h1, ?_, ?_⟩
    · intro a ha
      have ha' : some (⟨y, p, s.zoom, now, secs * 1000, s.nextId⟩ : AnimState)
          = some a := by rw [← ha]; rfl
      rw [(Option.some.inj ha').symm]
      show s.nextId ≠ id
      omega
    · show id < s.nextId + 1
      omega
  | tick t =>
    show HandleFree id (animateStep cfg s t)
    unfold animateStep
    apply autoBranch_handleFree
    split
    · exact ⟨h1, h2, h3⟩
    · rename_i a han
      dsimp only
      split
      · refine ⟨?_, by simp, h3⟩
        intro hmem
        rcases List.mem_cons.mp hmem with heq | hmem'
        · exact h2 a han heq.symm
        · exact h1 hmem'
      · exact ⟨h1, fun a' ha' => h2 a' ha', h3⟩
  | down x y =>
    show HandleFree id (handlePointerDown cfg s x y)
    unfold handlePointerDown
    split
    · exact ⟨h1, h2, h3⟩
    · exact ⟨h1, h2, h3⟩
  | move x y =>
    show HandleFree id (handlePointerMove cfg s x y)
    unfold handlePointerMove
    split
    · exact ⟨h1, h2, h3⟩
    · rename_i d _
      split
      · exact ⟨h1, h2, h3⟩
      · exact ⟨h1, h2, h3⟩
  | up =>
    show HandleFree id (handlePointerUp s)
    unfold handlePointerUp
    split
    · exact ⟨h1, h2, h3⟩
    · exact ⟨h1, h2, h3⟩
  | yawEv θ snap =>
    show HandleFree id (setYaw cfg s θ snap)
    unfold setYaw
    split
    · exact ⟨h1, h2, h3⟩
    · exact ⟨h1, h2, h3⟩
  | pitchEv φ => exact ⟨h1, h2, h3⟩
  | zoomEv z =>
    show HandleFree id (setZoom cfg s z)
    unfold setZoom
    split
    · exact ⟨h1, h2, h3⟩
    · exact ⟨h1, h2, h3⟩
  | parallaxEv p =>
    show HandleFree id (setParallax cfg s p)
    unfold setParallax
    split
    · exact ⟨h1, h2, h3⟩
    · exact ⟨h1, h2, h3⟩
  | pauseEv => exact ⟨h1, h2, h3⟩
  | resumeEv => exact ⟨h1, h2, h3⟩

/-- C3 (amended): a second `playTo` before completion replaces the pending
transition unconditionally (last-writer-wins, no queueing), and the
superseded call's handle is NEVER settled: once a handle is live nowhere in
the state — which holds for the old handle the moment `playTo` overwrites
`animStateRef` — no sequence of controller calls, pointer events or render
ticks ever resolves it.  It is left permanently pending, not explicitly
settled. -/
theorem playTo_supersedes_leaves_old_pending (cfg : ViewerConfig) :
    (∀ (s : VState) (yaw pitch secs now : ℚ),
      (playTo s yaw pitch secs now).1.anim =
        some ⟨yaw, pitch, s.zoom, now, secs * 1000, s.nextId⟩ ∧
      (playTo s yaw pitch secs now).2 = s.nextId ∧
      (playTo s yaw pitch secs now).1.settled = s.settled) ∧
    (∀ (id : ℕ) (s : VState), HandleFree id s →
      ∀ evs, id ∉ (runEvents cfg s evs).settled) := by
  constructor
  · intro s yaw pitch secs now
    exact ⟨rfl, rfl, rfl⟩
  · intro id s h evs
    induction evs generalizing s with
    | nil => exact h.1
    | cons ev evs ih => exact ih _ (stepEvent_handleFree h ev)

/-- C3, counterexample to the claim as stated: two `playTo` calls in a row
(handles 0 and 1), then a tick past the second transition's end: only
handle 1 is settled; handle 0 — the superseded call's handle — is settled
nowhere even though the transition machinery ran to completion. -/
theorem playTo_superseded_counterexample :
    (playTo initialState 90 0 1 0).2 = 0 ∧
    (playTo (playTo initialState 90 0 1 0).1 180 0 1 10).2 = 1 ∧
    (animateStep testConfig
      (playTo (playTo initialState 90 0 1 0).1 180 0 1 10).1 5000).settled
      = [1] ∧
    (animateStep testConfig
      (playTo (playTo initialState 90 0 1 0).1 180 0 1 10).1 5000).anim
      = none := by
  refine ⟨rfl, rfl, ?_, ?_⟩ <;>
    norm_num [animateStep, playTo, initialState, testConfig, easeInOutCubic,
      jsRem, jsTrunc]

/-- Closed instantiation of `playTo_supersedes_leaves_old_pending`: the
first handle (id 0) superseded by the second `playTo` is not settled after
the completion tick. -/
theorem playTo_supersedes_witness :
    0 ∉ (runEvents testConfig
      (playTo (playTo initialState 90 0 1 0).1 180 0 1 10).1
      [.tick 5000]).settled :=
  (playTo_supersedes_leaves_old_pending testConfig).2 0
    (playTo (playTo initialState 90 0 1 0).1 180 0 1 10).1
    (by
      refine ⟨by simp [playTo, initialState], ?_, by simp [playTo, initialState]⟩
      intro a ha
      simp [playTo, initialState] at ha
      rw [← ha]
      simp)
    [.tick 5000]

-- === Event dispatch (`emit`, C8) ===

/-- A subscriber callback for one event kind: invoked with the payload it
may return normally or throw (`Except.error`). -/
def Subscriber (α E : Type) : Type := α → Except E Unit

/-- The per-kind subscriber sets of `listenersRef`, as an association list
from event name to its subscriber list. -/
def listenersFor {α E : Type} (m : List (String × List (Subscriber α E)))
    (event : String) : List (Subscriber α E) :=
  match m.find? (fun p => p.1 == event) with
  | some p => p.2
  | none => []

/-- The outcome of running one callback inside `try { cb(value) } catch`:
`none` when the callback returned, `some e` when it threw and the exception
was caught (and logged). -/
def caughtOutcome {α E : Type} (cb : Subscriber α E) (v : α) : Option E :=
  match cb v with
  | Except.ok _ => none
  | Except.error e => some e

/-- `emit(event, value)` from `OrbitViewer.tsx`: iterate ALL subscribers
registered for the event in order, each inside its own try/catch, so an
exception from one subscriber is swallowed and iteration continues; the
list of per-subscriber outcomes is returned and no exception escapes into
the render loop. -/
def emit {α E : Type} (m : List (String × List (Subscriber α E)))
    (event : String) (v : α) : List (Option E) :=
  (listenersFor m event).foldl (fun acc cb => acc ++ [caughtOutcome cb v]) []

theorem foldl_append_outcomes {α E : Type} (v : α) :
    ∀ (cbs : List (Subscriber α E)) (acc : List (Option E)),
      cbs.foldl (fun acc cb => acc ++ [caughtOutcome cb v]) acc =
        acc ++ cbs.map (fun cb => caughtOutcome cb v) := by
  intro cbs
  induction cbs with
  | nil => intro acc; simp
  | cons cb cbs ih =>
    intro acc
    rw [List.foldl_cons, ih, List.map_cons]
    simp

/-- C8: when an event is emitted, every subscriber registered for that
event kind is invoked even if an earlier subscriber throws: the result list
has one entry per registered subscriber, and the k-th entry is exactly the
k-th subscriber's own outcome (its exception caught, or its normal return),
independent of every other subscriber's behavior; `emit` itself is a total
function returning the outcome list, so no subscriber fault escapes to
interrupt the render loop. -/
theorem emit_runs_every_subscriber {α E : Type}
    (m : List (String × List (Subscriber α E))) (event : String) (v : α) :
    emit m event v =
      (listenersFor m event).map (fun cb => caughtOutcome cb v) ∧
    (emit m event v).length = (listenersFor m event).length ∧
    ∀ (k : ℕ) (hk : k < (listenersFor m event).length),
      (emit m event v).getD k none =
        caughtOutcome ((listenersFor m event).get ⟨k, hk⟩) v := by
  have hmap : emit m event v =
      (listenersFor m event).map (fun cb => caughtOutcome cb v) := by
    unfold emit
    rw [foldl_append_outcomes]
    simp
  refine ⟨hmap, by rw [hmap]; simp, ?_⟩
  intro k hk
  rw [hmap]
  rw [List.getD_eq_getElem _ _ (by simpa using hk)]
  simp

/-- Closed instantiation of `emit_runs_every_subscriber` on an `angle`
subscriber list whose first callback throws: the second callback's slot
still holds its own (normal) outcome. -/
theorem emit_runs_every_subscriber_witness :
    (emit [("angle", [(fun _ => Except.error "boom" : Subscriber ℚ String),
        (fun _ => Except.ok () : Subscriber ℚ String)])] "angle" (0 : ℚ)).getD 1 none =
      caughtOutcome ((listenersFor [("angle",
        [(fun _ => Except.error "boom" : Subscriber ℚ String),
         (fun _ => Except.ok () : Subscriber ℚ String)])] "angle").get
        ⟨1, by simp [listenersFor]⟩) (0 : ℚ) :=
  (emit_runs_every_subscriber _ "angle" 0).2.2 1 (by simp [listenersFor])

-- === Stitch pass pixel function (`STITCHER_FRAGMENT`, C7) ===

/-- An RGBA sample. -/
structure Vec4 where
  r : ℚ
  g : ℚ
  b : ℚ
  a : ℚ
deriving Repr, DecidableEq

/-- An RGB triple. -/
structure Vec3 where
  x : ℚ
  y : ℚ
  z : ℚ
deriving Repr, DecidableEq

/-- The GLSL float builtins used by the shaders, abstracted (their values on
rationals are irrational in general): `powGamma` is `pow(·, 2.2)` of
`toLin`, `powInvGamma` is `pow(·, 1/2.2)` of `toSrgb`. -/
structure GpuFns where
  sin : ℚ → ℚ
  cos : ℚ → ℚ
  tan : ℚ → ℚ
  atan : ℚ → ℚ
  radians : ℚ → ℚ
  powGamma : ℚ → ℚ
  powInvGamma : ℚ → ℚ

/-- GLSL `smoothstep(e0, e1, x)`. -/
def smoothstepQ (e0 e1 x : ℚ) : ℚ :=
  let t := clampQ ((x - e0) / (e1 - e0)) 0 1
  t * t * (3 - 2 * t)

/-- `rotate2D(p, ang)` from `STITCHER_FRAGMENT`. -/
def rotate2D (fns : GpuFns) (p : ℚ × ℚ) (ang : ℚ) : ℚ × ℚ :=
  let c := fns.cos ang
  let s := fns.sin ang
  (c * p.1 - s * p.2, s * p.1 + c * p.2)

/-- `warpCylindrical(uv, sDeg)` from `STITCHER_FRAGMENT`. -/
def warpCylindrical (fns : GpuFns) (uv : ℚ × ℚ) (sDeg : ℚ) : ℚ × ℚ :=
  let s := fns.radians sDeg
  let px := uv.1 * 2 - 1
  let py := uv.2 * 2 - 1
  let xang := fns.atan px
  let xang2 := xang + s
  let x2 := fns.tan xang2
  let y2 := py * fns.cos s
  (clampQ ((x2 + 1) * (1/2)) 0 1, clampQ ((y2 + 1) * (1/2)) 0 1)

/-- `applyShear(uv, velocity, shearFactor)` from `STITCHER_FRAGMENT`. -/
def applyShear (uv : ℚ × ℚ) (velocity shearFactor : ℚ) : ℚ × ℚ :=
  (uv.1 + velocity * shearFactor * (uv.2 - 1/2), uv.2)

/-- The stitcher uniforms. -/
structure StitchUniforms where
  tileSizeX : ℚ
  tileSizeY : ℚ
  t : ℚ
  seamAngle : ℚ
  featherPx : ℚ
  warpDeg : ℚ
  stepDeg : ℚ
  shear : ℚ
deriving Repr, DecidableEq

/-- The intermediate values of one evaluation of the stitcher's `main`. -/
structure StitchTrace where
  mA : ℚ
  mB : ℚ
  a : Vec4
  b : Vec4
  wa : ℚ
  wb : ℚ
  outRGB : Vec3
  outA : ℚ
deriving Repr, DecidableEq

/-- `main()` of `STITCHER_FRAGMENT`, per pixel: rotate the seam frame by
`-seamAngle`, drift the seam center with `t`, build the smoothstep masks,
warp and shear both sources, sample them (`texA`/`texB` are the bound
textures as functions of uv), and blend alpha-weighted in linear space with
the zero guard `max(wa + wb, 1e-6)`. -/
def stitchTrace (fns : GpuFns) (texA texB : ℚ → ℚ → Vec4)
    (u : StitchUniforms) (uv : ℚ × ℚ) : StitchTrace :=
  let p0 := (uv.1 * 2 - 1, uv.2 * 2 - 1)
  let p := rotate2D fns p0 (-u.seamAngle)
  let uvR := ((p.1 + 1) * (1/2), (p.2 + 1) * (1/2))
  let seamCenter := 1/2 + (1/5) * (u.t - 1/2)
  let feather := u.featherPx / u.tileSizeX
  let edge := (uvR.1 - seamCenter) / max feather (1/1000000)
  let mB := smoothstepQ (-1) 1 edge
  let mA := 1 - mB
  let warpA := -u.warpDeg * u.t
  let warpB := u.warpDeg * (1 - u.t)
  let uvA0 := warpCylindrical fns uv warpA
  let uvB0 := warpCylindrical fns uv warpB
  let velocity := u.t * 2 - 1
  let uvA := applyShear uvA0 velocity u.shear
  let uvB := applyShear uvB0 (-velocity) u.shear
  let a := texA uvA.1 uvA.2
  let b := texB uvB.1 uvB.2
  let aLin : Vec3 := ⟨fns.powGamma a.r * a.a, fns.powGamma a.g * a.a,
    fns.powGamma a.b * a.a⟩
  let bLin : Vec3 := ⟨fns.powGamma b.r * b.a, fns.powGamma b.g * b.a,
    fns.powGamma b.b * b.a⟩
  let wa := mA * a.a
  let wb := mB * b.a
  let w := max (wa + wb) (1/1000000)
  let outLin : Vec3 := ⟨(aLin.x * mA + bLin.x * mB) / w,
    (aLin.y * mA + bLin.y * mB) / w, (aLin.z * mA + bLin.z * mB) / w⟩
  let outA := clampQ (wa + wb) 0 1
  let outRGB : Vec3 := ⟨fns.powInvGamma outLin.x, fns.powInvGamma outLin.y,
    fns.powInvGamma outLin.z⟩
  ⟨mA, mB, a, b, wa, wb, outRGB, outA⟩

/-- The fragment color written to `gl_FragColor`. -/
def stitchPixel (fns : GpuFns) (texA texB : ℚ → ℚ → Vec4)
    (u : StitchUniforms) (uv : ℚ × ℚ) : Vec4 :=
  let tr := stitchTrace fns texA texB u uv
  ⟨tr.outRGB.x, tr.outRGB.y, tr.outRGB.z, tr.outA⟩

/-- C7: for every pixel, every texture pair, every uniform record and every
value of the GLSL float primitives, the stitch pass pixel function
satisfies: `maskA = 1 - maskB`; each source's contribution weight equals
its seam mask times that source's own alpha (`wa = mA·αA`, `wb = mB·αB`);
the color blend is computed in linear (gamma-decoded) space, each channel
being the weight-normalized combination divided by the sum of the two
weights guarded against zero (`max(wa + wb, 1e-6)`) and re-encoded; and the
output alpha equals `clamp(wa + wb, 0, 1)`. -/
theorem stitch_pixel_spec (fns : GpuFns) (texA texB : ℚ → ℚ → Vec4)
    (u : StitchUniforms) (uv : ℚ × ℚ) :
    (stitchTrace fns texA texB u uv).mA = 1 - (stitchTrace fns texA texB u uv).mB ∧
    (stitchTrace fns texA texB u uv).wa =
      (stitchTrace fns texA texB u uv).mA * (stitchTrace fns texA texB u uv).a.a ∧
    (stitchTrace fns texA texB u uv).wb =
      (stitchTrace fns texA texB u uv).mB * (stitchTrace fns texA texB u uv).b.a ∧
    (stitchPixel fns texA texB u uv).a =
      clampQ ((stitchTrace fns texA texB u uv).wa +
        (stitchTrace fns texA texB u uv).wb) 0 1 ∧
    (stitchTrace fns texA texB u uv).outRGB =
      ⟨fns.powInvGamma ((fns.powGamma (stitchTrace fns texA texB u uv).a.r *
          (stitchTrace fns texA texB u uv).wa +
        fns.powGamma (stitchTrace fns texA texB u uv).b.r *
          (stitchTrace fns texA texB u uv).wb) /
        max ((stitchTrace fns texA texB u uv).wa +
          (stitchTrace fns texA texB u uv).wb) (1/1000000)),
       fns.powInvGamma ((fns.powGamma (stitchTrace fns texA texB u uv).a.g *
          (stitchTrace fns texA texB u uv).wa +
        fns.powGamma (stitchTrace fns texA texB u uv).b.g *
          (stitchTrace fns texA texB u uv).wb) /
        max ((stitchTrace fns texA texB u uv).wa +
          (stitchTrace fns texA texB u uv).wb) (1/1000000)),
       fns.powInvGamma ((fns.powGamma (stitchTrace fns texA texB u uv).a.b *
          (stitchTrace fns texA texB u uv).wa +
        fns.powGamma (stitchTrace fns texA texB u uv).b.b *
          (stitchTrace fns texA texB u uv).wb) /
        max ((stitchTrace fns texA texB u uv).wa +
          (stitchTrace fns texA texB u uv).wb) (1/1000000))⟩ := by
  refine ⟨rfl, rfl, rfl, rfl, ?_⟩
  simp only [stitchTrace, Vec3.mk.injEq]
  refine ⟨?_, ?_, ?_⟩ <;> (congr 1; ring)

end Orbit
